import Mathlib

/-!
# GeocodingDemo: verification of the address-search service

A shallow embedding of the core of the GeocodingDemo repository: the address
normalizer, the radix-trie index, the forward store, the data node's search,
the CSV loader, and the gateway's scoring / deduplication / ranking and the
`/api/findAddress` HTTP handler.  C++ strings are modelled as `List Char`
(byte strings), C++ `double` as `ℚ` (the arithmetic performed by the scorer is
modelled exactly), `size_t` record IDs as `Nat`.  Each definition mirrors the
corresponding C++ function of the repository.
-/

namespace Geocoding

/-! ## Character classification

`std::isspace` in the default C locale accepts exactly the six ASCII
whitespace bytes 9-13 and 32; `std::toupper` maps bytes 97-122 (`a`-`z`) to
65-90 (`A`-`Z`) and leaves every other byte unchanged.  We classify characters
by their code points, mirroring the byte-level C classification. -/

/-- Models `std::isspace` (default C locale). -/
def isSpaceC (c : Char) : Bool :=
  c.toNat = 32 || c.toNat = 9 || c.toNat = 10 || c.toNat = 11 ||
    c.toNat = 12 || c.toNat = 13

/-- A character is an ASCII lowercase letter (`a`-`z`). -/
def isLowerC (c : Char) : Bool := 97 ≤ c.toNat && c.toNat ≤ 122

/-- Models `std::toupper` (default C locale) on a byte. -/
def upperChar (c : Char) : Char :=
  if 97 ≤ c.toNat ∧ c.toNat ≤ 122 then Char.ofNat (c.toNat - 32) else c

/-! ## AddressNormalizer (web/README.md, `address_normalizer.cpp`) -/

/-- `AddressNormalizer::toUpperCase`. -/
def toUpperCase (s : List Char) : List Char := s.map upperChar

/-- `AddressNormalizer::trimWhitespace`: the substring from the first
non-whitespace character to the last one. -/
def trimWhitespace (s : List Char) : List Char :=
  ((s.dropWhile isSpaceC).reverse.dropWhile isSpaceC).reverse

/-- The loop of `AddressNormalizer::collapseWhitespace`; `prev` is the
`prev_was_space` flag. -/
def collapseGo : List Char → Bool → List Char
  | [], _ => []
  | c :: cs, prev =>
    if isSpaceC c then
      if prev then collapseGo cs true else ' ' :: collapseGo cs true
    else
      c :: collapseGo cs false

/-- `AddressNormalizer::collapseWhitespace`: each whitespace run becomes a
single `' '`. -/
def collapseWhitespace (s : List Char) : List Char := collapseGo s false

/-- `AddressNormalizer::normalize`: uppercase, then trim, then collapse. -/
def normalize (s : List Char) : List Char :=
  collapseWhitespace (trimWhitespace (toUpperCase s))

/-! ### Normal form

A string is in normalized form when it has no lowercase letters, no leading or
trailing whitespace, and every whitespace character in it is a lone `' '`
(spec §3 "NormalizedTerm" and §8). -/

/-- Every whitespace character in the string is a `' '` not followed by
further whitespace. -/
def wsOk : List Char → Bool
  | [] => true
  | c :: cs =>
    (if isSpaceC c then
      c = ' ' && (match cs.head? with | some d => !(isSpaceC d) | none => true)
    else true) && wsOk cs

/-- The spec's normalized form: uppercase, trimmed, single-spaced. -/
def isNormalized (s : List Char) : Bool :=
  s.all (fun c => !(isLowerC c)) &&
  (match s.head? with | some c => !(isSpaceC c) | none => true) &&
  (match s.getLast? with | some c => !(isSpaceC c) | none => true) &&
  wsOk s

/-! ## RadixTreeIndex (unnamed/part_008, `radix_tree_index.cpp` with the
`include/data_node/radix_tree_index.h` node layout: `size_t` address IDs)

A node carries an edge label, the IDs terminating at the node, and the child
list; `term_count_` counts calls to `insert` with a non-empty term. -/

inductive RadixNode : Type where
  | node (edge_label : List Char) (address_ids : List Nat) (children : List RadixNode)

def RadixNode.label : RadixNode → List Char
  | .node l _ _ => l

def RadixNode.ids : RadixNode → List Nat
  | .node _ i _ => i

def RadixNode.children : RadixNode → List RadixNode
  | .node _ _ c => c

/-- Length of the common prefix of two strings (the `while` loop of
`insertHelper`). -/
def commonPrefixLen : List Char → List Char → Nat
  | a :: as, b :: bs => if a = b then commonPrefixLen as bs + 1 else 0
  | _, _ => 0

/-- Ascending insertion into a sorted list; `sortNat` models `std::sort` on a
`std::vector<size_t>` (the sorted permutation of a list of naturals is
unique). -/
def insertNat (x : Nat) : List Nat → List Nat
  | [] => [x]
  | y :: ys => if x ≤ y then x :: y :: ys else y :: insertNat x ys

def sortNat (l : List Nat) : List Nat := l.foldr insertNat []

/-- The ID-list update of `insertHelper`: skip if present, otherwise
`push_back` and `std::sort`. -/
def addId (id : Nat) (ids : List Nat) : List Nat :=
  if id ∈ ids then ids else sortNat (ids ++ [id])

/-- `std::string::operator<`: lexicographic comparison. -/
def lexLt : List Char → List Char → Bool
  | [], [] => false
  | [], _ :: _ => true
  | _ :: _, [] => false
  | a :: as, b :: bs => if a < b then true else if b < a then false else lexLt as bs

/-- Insertion into a child list sorted by edge label. -/
def insertChild (c : RadixNode) : List RadixNode → List RadixNode
  | [] => [c]
  | d :: ds => if lexLt c.label d.label then c :: d :: ds else d :: insertChild c ds

/-- Models the `std::sort` of a child vector by edge label (children of a
well-formed node have distinct labels, for which the sorted permutation is
unique). -/
def sortChildren (cs : List RadixNode) : List RadixNode := cs.foldr insertChild []

mutual

/-- `RadixTreeIndex::insertHelper` at one node: `rem` is
`term.substr(depth)`. -/
def insertGo (n : RadixNode) (rem : List Char) (id : Nat) : RadixNode :=
  match n, rem with
  | .node l ids cs, [] => .node l (addId id ids) cs
  | .node l ids cs, r :: rs =>
    match insertChildren cs (r :: rs) id with
    | some cs' => .node l ids cs'
    | none =>
      .node l ids (sortChildren (cs ++ [.node (r :: rs) [id] []]))

/-- The loop over children in `insertHelper`: act on the first child sharing
a non-empty prefix with `rem`; `none` means no child shares a prefix. -/
def insertChildren (cs : List RadixNode) (rem : List Char) (id : Nat) :
    Option (List RadixNode) :=
  match cs with
  | [] => none
  | c :: rest =>
    if commonPrefixLen c.label rem = 0 then
      match insertChildren rest rem id with
      | some rest' => some (c :: rest')
      | none => none
    else
      if commonPrefixLen c.label rem = c.label.length then
        some (insertGo c (rem.drop (commonPrefixLen c.label rem)) id :: rest)
      else
        -- split the edge: reparent the existing child under an intermediate
        -- node labelled with the common prefix
        some ((if commonPrefixLen c.label rem = rem.length then
          RadixNode.node (c.label.take (commonPrefixLen c.label rem)) [id]
            [RadixNode.node (c.label.drop (commonPrefixLen c.label rem)) c.ids c.children]
        else
          RadixNode.node (c.label.take (commonPrefixLen c.label rem)) []
            (sortChildren
              [RadixNode.node (c.label.drop (commonPrefixLen c.label rem)) c.ids c.children,
                RadixNode.node (rem.drop (commonPrefixLen c.label rem)) [id] []])) :: rest)

end

mutual

/-- `RadixTreeIndex::collectAllIds`: gather the node's IDs then the
children's, suppressing duplicates against the accumulated result. -/
def collectIds (n : RadixNode) (acc : List Nat) : List Nat :=
  match n with
  | .node _ ids cs =>
    collectList cs (ids.foldl (fun a x => if x ∈ a then a else a ++ [x]) acc)
termination_by sizeOf n

def collectList (cs : List RadixNode) (acc : List Nat) : List Nat :=
  match cs with
  | [] => acc
  | c :: rest => collectList rest (collectIds c acc)
termination_by sizeOf cs

end

mutual

/-- `RadixTreeIndex::searchHelper` at one node: `rem` is
`prefix.substr(depth)`. -/
def searchGo (n : RadixNode) (rem : List Char) : List Nat :=
  match n, rem with
  | n, [] => collectIds n []
  | .node _ _ cs, r :: rs => searchChildren cs (r :: rs)
termination_by sizeOf n

/-- The loop over children in `searchHelper`. -/
def searchChildren (cs : List RadixNode) (rem : List Char) : List Nat :=
  match cs with
  | [] => []
  | c :: rest =>
    if rem.length ≤ c.label.length then
      if rem.isPrefixOf c.label then collectIds c [] else searchChildren rest rem
    else
      if c.label.isPrefixOf rem then searchGo c (rem.drop c.label.length)
      else searchChildren rest rem
termination_by sizeOf cs

end

/-- The radix-trie index: the root node plus the insert counter. -/
structure RadixTreeIndex where
  root : RadixNode
  term_count : Nat

/-- `RadixTreeIndex::RadixTreeIndex()`. -/
def RadixTreeIndex.empty : RadixTreeIndex :=
  ⟨.node [] [] [], 0⟩

/-- `RadixTreeIndex::insert`: empty term is a no-op. -/
def RadixTreeIndex.insert (t : RadixTreeIndex) (term : List Char) (id : Nat) :
    RadixTreeIndex :=
  if term = [] then t else ⟨insertGo t.root term id, t.term_count + 1⟩

/-- `RadixTreeIndex::search`: empty prefix returns the empty list. -/
def RadixTreeIndex.search (t : RadixTreeIndex) (pfx : List Char) : List Nat :=
  if pfx = [] then [] else searchGo t.root pfx

/-! ### Keys stored in a trie and the structural invariant -/

/-- `HasKey n w id`: below node `n`, following edges whose labels concatenate
to `w`, some node carries `id` (the path word is relative to `n`; `n`'s own
edge label is not counted). -/
inductive HasKey : RadixNode → List Char → Nat → Prop where
  | here : ∀ (l : List Char) (ids : List Nat) (cs : List RadixNode) (id : Nat),
      id ∈ ids → HasKey (.node l ids cs) [] id
  | via : ∀ (l : List Char) (ids : List Nat) (cs : List RadixNode)
      (c : RadixNode) (w : List Char) (id : Nat),
      c ∈ cs → HasKey c w id → HasKey (.node l ids cs) (c.label ++ w) id

/-- The children of a well-formed node have pairwise distinct first
characters. -/
def HeadsDistinct (cs : List RadixNode) : Prop :=
  (cs.map fun c => c.label.head?).Pairwise (fun a b => a ≠ b)

/-- The structural invariant maintained by `insertHelper` (spec §4.3): at any
node no two children share a first character, edge labels of non-root nodes
are non-empty. -/
inductive Inv : RadixNode → Prop where
  | mk : ∀ (l : List Char) (ids : List Nat) (cs : List RadixNode),
      HeadsDistinct cs →
      (∀ c ∈ cs, c.label ≠ []) →
      (∀ c ∈ cs, Inv c) →
      Inv (.node l ids cs)

/-- A trie built by a sequence of `insert(term, id)` calls. -/
def buildTrie (inserts : List (List Char × Nat)) : RadixTreeIndex :=
  inserts.foldl (fun t p => t.insert p.1 p.2) RadixTreeIndex.empty

/-! ## AddressRecord and ForwardIndex (data-node side)

`address_record.h` in the `size_t`-hash variant used by `csv_parser.cpp` and
`data_node.cpp` (`record.hash` is the 64-bit record ID); coordinates are
modelled as exact rationals. -/

structure AddressRecord where
  longitude : ℚ
  latitude : ℚ
  hash : Nat
  number : List Char
  street : List Char
  unit : List Char
  city : List Char
  postcode : List Char
  original_street : List Char
  original_unit : List Char
  original_city : List Char
deriving DecidableEq

/-- `ForwardIndex` (the `size_t`-keyed variant of `forward_index.h` used by
`data_node.cpp`): a `std::unordered_map<size_t, AddressRecord>`, modelled as
its lookup function. -/
def ForwardIndex : Type := Nat → Option AddressRecord

def ForwardIndex.emptyFI : ForwardIndex := fun _ => none

/-- `ForwardIndex::insert`: `records_[id] = record` (later inserts with the
same key overwrite). -/
def ForwardIndex.insert (m : ForwardIndex) (id : Nat) (r : AddressRecord) :
    ForwardIndex :=
  fun k => if k = id then some r else m k

/-- `ForwardIndex::get`. -/
def ForwardIndex.get (m : ForwardIndex) (id : Nat) : Option AddressRecord := m id

/-! ## DataNode query processing (`src/src/data_node/data_node.cpp`) -/

/-- Modelled from the spec: `KEY_SEPARATOR` is declared in the version of
`data_node.h` that is absent from the sources (only its uses in
`data_node.cpp` are present).  Nothing below depends on its value, only on it
being one fixed string. -/
def KEY_SEPARATOR : List Char := ("|").toList

/-- `DataNode::ParsedAddress`. -/
structure ParsedAddress where
  number : List Char := []
  street : List Char := []
  city : List Char := []
  postcode : List Char := []
deriving DecidableEq

/-- The comma-splitting loop of `DataNode::parseQuery`: empty segments are
never pushed. -/
def splitCommaGo : List Char → List Char → List (List Char)
  | [], cur => if cur = [] then [] else [cur.reverse]
  | c :: cs, cur =>
    if c = ',' then
      (if cur = [] then splitCommaGo cs [] else cur.reverse :: splitCommaGo cs [])
    else splitCommaGo cs (c :: cur)

/-- Whitespace tokenization (`std::istringstream >>`): maximal runs of
non-whitespace characters. -/
def splitWsGo : List Char → List Char → List (List Char)
  | [], cur => if cur = [] then [] else [cur.reverse]
  | c :: cs, cur =>
    if isSpaceC c then
      (if cur = [] then splitWsGo cs [] else cur.reverse :: splitWsGo cs [])
    else splitWsGo cs (c :: cur)

def splitWs (s : List Char) : List (List Char) := splitWsGo s []

/-- Joining tokens with single spaces (the street-reassembly loop of
`parseQuery`). -/
def joinSpace : List (List Char) → List Char
  | [] => []
  | [t] => t
  | t :: ts => t ++ ' ' :: joinSpace ts

/-- `DataNode::parseQuery`: split on commas, trim each part; the first part
gives `number` (first token) and `street` (remaining tokens joined); parts 2
and 3 give `city` and `postcode`. -/
def parseQuery (query : List Char) : ParsedAddress :=
  let parts := (splitCommaGo query []).map trimWhitespace
  let base : ParsedAddress :=
    match parts with
    | [] => {}
    | first :: _ =>
      match splitWs first with
      | [] => {}
      | t0 :: ts => { number := t0, street := joinSpace ts }
  { base with
    city := (parts.get? 1).getD []
    postcode := (parts.get? 2).getD [] }

/-- `DataNode::generateSearchKeys`: composite keys (number‑street‑city,
number‑street, number‑street‑city‑postcode) over normalized components,
emitted only when every component involved is non-empty. -/
def generateSearchKeys (r : AddressRecord) : List (List Char) :=
  let nn := normalize r.number
  let ns := normalize r.street
  let nc := normalize r.city
  let np := normalize r.postcode
  (if nn ≠ [] ∧ ns ≠ [] ∧ nc ≠ [] then
    [nn ++ KEY_SEPARATOR ++ ns ++ KEY_SEPARATOR ++ nc] else []) ++
  (if nn ≠ [] ∧ ns ≠ [] then [nn ++ KEY_SEPARATOR ++ ns] else []) ++
  (if nn ≠ [] ∧ ns ≠ [] ∧ nc ≠ [] ∧ np ≠ [] then
    [nn ++ KEY_SEPARATOR ++ ns ++ KEY_SEPARATOR ++ nc ++ KEY_SEPARATOR ++ np]
   else [])

/-- `DataNode::buildIndexes`: for each record, keyed by `record.hash`, insert
into the forward index, insert the composite keys, then the normalized
individual fields street / city / postcode / number when non-empty. -/
def buildIndexes (records : List AddressRecord) :
    RadixTreeIndex × ForwardIndex :=
  records.foldl
    (fun acc r =>
      let id := r.hash
      let f' := acc.2.insert id r
      let t1 := (generateSearchKeys r).foldl (fun t k => t.insert k id) acc.1
      let t2 := if r.street ≠ [] then t1.insert (normalize r.street) id else t1
      let t3 := if r.city ≠ [] then t2.insert (normalize r.city) id else t2
      let t4 := if r.postcode ≠ [] then t3.insert (normalize r.postcode) id else t3
      let t5 := if r.number ≠ [] then t4.insert (normalize r.number) id else t4
      (t5, f'))
    (RadixTreeIndex.empty, ForwardIndex.emptyFI)

/-- The key-probing loop of the structured branch of
`DataNode::findMatchingIds`: search each key in turn and return the first
non-empty result. -/
def tryKeys (t : RadixTreeIndex) : List (List Char) → List Nat
  | [] => []
  | k :: ks => if t.search k = [] then tryKeys t ks else t.search k

/-- The intersection loop of `DataNode::findMatchingIds` with early
termination (the `unordered_set` of surviving IDs is modelled as the list of
survivors in first-search order; only membership is observable). -/
def intersectLoop (t : RadixTreeIndex) (acc : List Nat) :
    List (List Char) → List Nat
  | [] => acc
  | s :: rest =>
    if acc.filter (fun x => decide (x ∈ t.search s)) = [] then
      acc.filter (fun x => decide (x ∈ t.search s))
    else intersectLoop t (acc.filter (fun x => decide (x ∈ t.search s))) rest

/-- `DataNode::findMatchingIds`. -/
def findMatchingIds (t : RadixTreeIndex) : List (List Char) → List Nat
  | [] => []
  | q :: qs =>
    if qs = [] ∧ ',' ∈ q then
      -- structured address query: probe composite keys, most specific first
      let p := parseQuery q
      let nn := normalize p.number
      let ns := normalize p.street
      let nc := normalize p.city
      let np := normalize p.postcode
      tryKeys t
        ((if nn ≠ [] ∧ ns ≠ [] ∧ nc ≠ [] ∧ np ≠ [] then
            [nn ++ KEY_SEPARATOR ++ ns ++ KEY_SEPARATOR ++ nc ++
              KEY_SEPARATOR ++ np] else []) ++
         (if nn ≠ [] ∧ ns ≠ [] ∧ nc ≠ [] then
            [nn ++ KEY_SEPARATOR ++ ns ++ KEY_SEPARATOR ++ nc] else []) ++
         (if nn ≠ [] ∧ ns ≠ [] then [nn ++ KEY_SEPARATOR ++ ns] else []))
    else
      if t.search (normalize q) = [] ∨ qs = [] then t.search (normalize q)
      else intersectLoop t (t.search (normalize q)) (qs.map normalize)

/-- `DataNode::search`: find matching IDs, then materialize each from the
forward index, skipping IDs missing there. -/
def DataNode.search (t : RadixTreeIndex) (fi : ForwardIndex)
    (query_terms : List (List Char)) : List AddressRecord :=
  if query_terms = [] then []
  else (findMatchingIds t query_terms).filterMap (fun id => fi.get id)

def c1rec : AddressRecord :=
  ⟨0, 0, 1, ("123").toList, ("MAIN").toList, [], ("SEATTLE").toList,
   ("98101").toList, ("MAIN").toList, [], ("SEATTLE").toList⟩

def c1trie : RadixTreeIndex :=
  (RadixTreeIndex.empty.insert (("MAIN").toList) 1).insert (("SEATTLE").toList) 1

def c1fi : ForwardIndex := fun k => if k = 1 then some c1rec else none

/-! ### Claim C10: structured single-term queries use only composite keys -/

/-- The composite keys the claim describes for a structured query:
most specific first — number+street+city+postcode, number+street+city,
number+street — each built from the normalized parsed components present. -/
def structuredKeys (q : List Char) : List (List Char) :=
  let p := parseQuery q
  let nn := normalize p.number
  let ns := normalize p.street
  let nc := normalize p.city
  let np := normalize p.postcode
  (if nn ≠ [] ∧ ns ≠ [] ∧ nc ≠ [] ∧ np ≠ [] then
     [nn ++ KEY_SEPARATOR ++ ns ++ KEY_SEPARATOR ++ nc ++ KEY_SEPARATOR ++ np]
   else []) ++
  (if nn ≠ [] ∧ ns ≠ [] ∧ nc ≠ [] then
     [nn ++ KEY_SEPARATOR ++ ns ++ KEY_SEPARATOR ++ nc] else []) ++
  (if nn ≠ [] ∧ ns ≠ [] then [nn ++ KEY_SEPARATOR ++ ns] else [])

/-- First non-empty search result among candidates (the claim's "IDs from
the first key with a non-empty result", empty when none match). -/
def firstNonEmptyResult (results : List (List Nat)) : List Nat :=
  match results.filter (fun r => r ≠ []) with
  | [] => []
  | r :: _ => r

/-- The structured-query lookup as the claim states it: probe the trie with
the composite keys in order and return the first non-empty result. -/
def structuredLookupSpec (t : RadixTreeIndex) (q : List Char) : List Nat :=
  firstNonEmptyResult ((structuredKeys q).map (fun k => t.search k))

def c10trie : RadixTreeIndex :=
  RadixTreeIndex.empty.insert
    (("12").toList ++ KEY_SEPARATOR ++ ("FOO").toList ++ KEY_SEPARATOR ++
      ("BAR").toList) 7

/-! ## CSVParser (`src/src/data_node/csv_parser.cpp`)

A shard file is modelled as its list of lines.  `std::stod` is modelled on
decimal forms over exact rationals (values beyond the `double` range make
`stod` throw `out_of_range`, modelled by the `2^1024` bound);
`std::stoull(·, nullptr, 16)` is modelled by `parseHexU64`, `none` standing
for both of its exceptions. -/

def isDigitC (c : Char) : Bool := 48 ≤ c.toNat && c.toNat ≤ 57

def digitsToNat (l : List Char) : Nat :=
  l.foldl (fun a c => a * 10 + (c.toNat - 48)) 0

/-- Models `std::stod` on decimal literals: optional leading whitespace and
sign, digits with an optional fraction, an optional exponent; `none` when no
digits can be consumed or the value overflows the `double` range. -/
def parseFloat (s : List Char) : Option ℚ :=
  let s1 := s.dropWhile isSpaceC
  let sgn : ℚ := match s1 with
    | '-' :: _ => -1
    | _ => 1
  let s2 := match s1 with
    | '-' :: rest => rest
    | '+' :: rest => rest
    | _ => s1
  let intDigits := s2.takeWhile isDigitC
  let s3 := s2.dropWhile isDigitC
  let fracDigits := match s3 with
    | '.' :: rest => rest.takeWhile isDigitC
    | _ => []
  let s4 := match s3 with
    | '.' :: rest => rest.dropWhile isDigitC
    | _ => s3
  if intDigits = [] ∧ fracDigits = [] then none
  else
    let mantissa : ℚ := (digitsToNat intDigits : ℚ) +
      (digitsToNat fracDigits : ℚ) / ((10 : ℚ) ^ fracDigits.length)
    let expVal : Int := match s4 with
      | e :: rest =>
        if e = 'e' ∨ e = 'E' then
          match rest with
          | '-' :: ds =>
            if ds.takeWhile isDigitC = [] then 0
            else -(digitsToNat (ds.takeWhile isDigitC) : Int)
          | '+' :: ds =>
            if ds.takeWhile isDigitC = [] then 0
            else (digitsToNat (ds.takeWhile isDigitC) : Int)
          | ds =>
            if ds.takeWhile isDigitC = [] then 0
            else (digitsToNat (ds.takeWhile isDigitC) : Int)
        else 0
      | [] => 0
    let value := sgn * mantissa * (10 : ℚ) ^ expVal
    if value < -((2 : ℚ) ^ 1024) ∨ ((2 : ℚ) ^ 1024) < value then none
    else some value

def isHexDigitC (c : Char) : Bool :=
  (48 ≤ c.toNat && c.toNat ≤ 57) || (97 ≤ c.toNat && c.toNat ≤ 102) ||
    (65 ≤ c.toNat && c.toNat ≤ 70)

def hexVal (c : Char) : Nat :=
  if c.toNat ≤ 57 then c.toNat - 48
  else if c.toNat ≤ 70 then c.toNat - 55
  else c.toNat - 87

def startsWithHexDigit : List Char → Bool
  | [] => false
  | c :: _ => isHexDigitC c

/-- Models `std::stoull(s, nullptr, 16)`: optional whitespace and sign, an
optional `0x` prefix (consumed only when followed by a hex digit), then hex
digits; `none` when no digit is consumed (`invalid_argument`) or the value
exceeds 64 bits (`out_of_range`). -/
def parseHexU64 (s : List Char) : Option Nat :=
  let s1 := s.dropWhile isSpaceC
  let s2 := match s1 with
    | '+' :: r => r
    | '-' :: r => r
    | _ => s1
  let s3 := match s2 with
    | '0' :: x :: r =>
      if (x = 'x' ∨ x = 'X') ∧ startsWithHexDigit r = true then r else s2
    | _ => s2
  let ds := s3.takeWhile isHexDigitC
  if ds = [] then none
  else
    let v := ds.foldl (fun a c => a * 16 + hexVal c) 0
    if v < 2 ^ 64 then some v else none

/-- `CSVParser::validateCoordinates`. -/
def validateCoordinates (lon lat : ℚ) : Bool :=
  (-180 ≤ lon && lon ≤ 180) && (-90 ≤ lat && lat ≤ 90)

/-- The field-splitting loop of `CSVParser::splitCSVLine`: a double quote
toggles the in-quotes state; commas outside quotes split. -/
def splitCSVGo : List Char → Bool → List Char → List (List Char)
  | [], _, field => [field.reverse]
  | c :: cs, inQ, field =>
    if c = '"' then splitCSVGo cs (!inQ) field
    else if c = ',' ∧ inQ = false then field.reverse :: splitCSVGo cs inQ []
    else splitCSVGo cs inQ (c :: field)

def splitCSVLine (line : List Char) : List (List Char) :=
  splitCSVGo line false []

/-- `CSVParser::parseRecord`: requires at least 11 fields, parsable and
in-range coordinates, and a parsable (or empty, defaulting to 0) hex HASH;
the record keeps street/unit/city as their own originals. -/
def parseRecord (line : List Char) : Option AddressRecord :=
  let fields := splitCSVLine line
  if fields.length < 11 then none
  else
    match parseFloat ((fields.get? 0).getD []),
          parseFloat ((fields.get? 1).getD []) with
    | some lon, some lat =>
      if validateCoordinates lon lat then
        let hash_str := (fields.get? 10).getD []
        match (if hash_str = [] then some 0 else parseHexU64 hash_str) with
        | some h =>
          some ⟨lon, lat, h,
            (fields.get? 2).getD [], (fields.get? 3).getD [],
            (fields.get? 4).getD [], (fields.get? 5).getD [],
            (fields.get? 8).getD [],
            (fields.get? 3).getD [], (fields.get? 4).getD [],
            (fields.get? 5).getD []⟩
        | none => none
      else none
    | _, _ => none

/-- The line loop of `CSVParser::parse` after the header has been skipped:
whitespace-only lines are skipped silently, parsed lines append a record and
bump the success counter, failed lines bump the error counter. -/
def parseDataLines : List (List Char) → List AddressRecord × Nat × Nat
  | [] => ([], 0, 0)
  | l :: ls =>
    let rest := parseDataLines ls
    if trimWhitespace l = [] then rest
    else
      match parseRecord l with
      | some r => (r :: rest.1, rest.2.1 + 1, rest.2.2)
      | none => (rest.1, rest.2.1, rest.2.2 + 1)

/-- `CSVParser::parse` on a file's lines: skip the first (header) line, then
process the rest; returns the records and the success / error counters. -/
def CSVParser.parse : List (List Char) → List AddressRecord × Nat × Nat
  | [] => ([], 0, 0)
  | _header :: rest => parseDataLines rest

/-! ### Claim C6: the per-line contract and the counters -/

/-- A data line is valid as the claim enumerates it: at least 11 fields, LON
and LAT parse as decimal floats, coordinates inside
`[-180,180] x [-90,90]`, and the HASH field parses as base-16 (the code
treats an empty HASH as the default value 0, never reaching `stoull`). -/
def validLine (l : List Char) : Bool :=
  decide (11 ≤ (splitCSVLine l).length) &&
  (match parseFloat (((splitCSVLine l).get? 0).getD []),
         parseFloat (((splitCSVLine l).get? 1).getD []) with
   | some lon, some lat => validateCoordinates lon lat
   | _, _ => false) &&
  ((((splitCSVLine l).get? 10).getD []).isEmpty ||
    (parseHexU64 (((splitCSVLine l).get? 10).getD [])).isSome)

/-! ## Gateway (src/web/README.md: `gateway_server.h` / `gateway_server.cpp`)

The wire record `datanode::AddressRecord` carries the hash as a hex string;
`double` scores are modelled as exact rationals. -/

structure ProtoAddressRecord where
  hash : List Char
  longitude : ℚ
  latitude : ℚ
  number : List Char
  street : List Char
  unit : List Char
  city : List Char
  postcode : List Char
deriving DecidableEq

structure DataNodeResult where
  shard_id : Int
  success : Bool
  error_message : List Char
  records : List ProtoAddressRecord
deriving DecidableEq

structure ScoredAddressRecord where
  record : ProtoAddressRecord
  shard_id : Int
  relevance_score : ℚ
deriving DecidableEq

/-- `std::string::find(needle) != npos`: `needle` occurs as a contiguous
substring. -/
def containsSub : List Char → List Char → Bool
  | [], needle => needle.isEmpty
  | h :: t, needle => needle.isPrefixOf (h :: t) || containsSub t needle

/-- `GatewayServer::isDuplicate`: equality of number, street, city and
postcode; `unit` is ignored. -/
def isDuplicate (a b : ProtoAddressRecord) : Bool :=
  decide (a.number = b.number) && decide (a.street = b.street) &&
  decide (a.city = b.city) && decide (a.postcode = b.postcode)

/-- `GatewayServer::calculateRelevanceScore`, computed exactly over `ℚ`:
base percentage of matching terms, per-term field bonuses, and the
completeness bonus. -/
def calculateRelevanceScore (r : ProtoAddressRecord)
    (query_terms : List (List Char)) : ℚ :=
  let fields := [r.street, r.city, r.postcode, r.number]
  let matching_terms : Nat :=
    query_terms.countP (fun term => fields.any (fun f => containsSub f term))
  let base : ℚ := if query_terms = [] then 0
    else ((matching_terms : ℚ) / (query_terms.length : ℚ)) * 100
  let bonus : ℚ := (query_terms.map (fun term =>
    (if containsSub r.street term then
      (if term.isPrefixOf r.street then (15 : ℚ) else 10) else 0) +
    (if containsSub r.city term then
      (if term.isPrefixOf r.city then (8 : ℚ) else 5) else 0) +
    (if containsSub r.postcode term then (3 : ℚ) else 0) +
    (if containsSub r.number term then (5 : ℚ) else 0))).sum
  let completeness : Nat :=
    (if r.number ≠ [] then 1 else 0) + (if r.street ≠ [] then 1 else 0) +
    (if r.unit ≠ [] then 1 else 0) + (if r.city ≠ [] then 1 else 0) +
    (if r.postcode ≠ [] then 1 else 0)
  base + bonus + (completeness : ℚ) * 2

/-! ### Claim C2: the scoring formula as the spec states it -/

/-- The relevance score as the claim words it: `100 * (matching / total)`
where a term matches when it is a substring of any of street, city,
postcode, number; per-term bonuses `+15` at position 0 of street else `+10`
anywhere, `+8` / `+5` for city, `+3` for postcode, `+5` for number; and `+2`
per non-empty field among number, street, unit, city, postcode. -/
def specRelevanceScore (r : ProtoAddressRecord)
    (query_terms : List (List Char)) : ℚ :=
  100 * ((query_terms.countP (fun term =>
      containsSub r.street term || containsSub r.city term ||
      containsSub r.postcode term || containsSub r.number term) : ℚ) /
    (query_terms.length : ℚ)) +
  (query_terms.map (fun term =>
    (if term.isPrefixOf r.street then (15 : ℚ)
     else if containsSub r.street term then 10 else 0) +
    (if term.isPrefixOf r.city then (8 : ℚ)
     else if containsSub r.city term then 5 else 0) +
    (if containsSub r.postcode term then (3 : ℚ) else 0) +
    (if containsSub r.number term then (5 : ℚ) else 0))).sum +
  2 * ((if r.number ≠ [] then 1 else 0) + (if r.street ≠ [] then 1 else 0) +
    (if r.unit ≠ [] then 1 else 0) + (if r.city ≠ [] then 1 else 0) +
    (if r.postcode ≠ [] then (1 : ℚ) else 0))

def c2rec : ProtoAddressRecord :=
  ⟨("1a").toList, 0, 0, ("611").toList, ("3RD ST").toList, [],
   ("STEILACOOM").toList, ("98388").toList⟩

/-! ### The Aggregator (`aggregateAndRankResults`) -/

/-- The duplicate-scan of `aggregateAndRankResults` for one incoming scored
record: walk the accumulated list; at the first duplicate keep the higher
scored version (the existing one on ties) and stop; otherwise append. -/
def dedupInsert (acc : List ScoredAddressRecord) (s : ScoredAddressRecord) :
    List ScoredAddressRecord :=
  match acc with
  | [] => [s]
  | e :: rest =>
    if isDuplicate e.record s.record then
      (if s.relevance_score > e.relevance_score then s else e) :: rest
    else e :: dedupInsert rest s

/-- The collection phase of `aggregateAndRankResults`: records of successful
shards, scored, deduplicated in arrival order. -/
def collectScored (results : List DataNodeResult)
    (query_terms : List (List Char)) : List ScoredAddressRecord :=
  results.foldl
    (fun acc res =>
      if res.success then
        res.records.foldl
          (fun acc2 r =>
            dedupInsert acc2 ⟨r, res.shard_id, calculateRelevanceScore r query_terms⟩)
          acc
      else acc)
    []

/-- Ordered insertion for `ScoredAddressRecord::operator<` (descending
relevance score); `sortScored` models the `std::sort` call. -/
def insertScored (s : ScoredAddressRecord) :
    List ScoredAddressRecord → List ScoredAddressRecord
  | [] => [s]
  | t :: ts =>
    if s.relevance_score > t.relevance_score then s :: t :: ts
    else t :: insertScored s ts

def sortScored (l : List ScoredAddressRecord) : List ScoredAddressRecord :=
  l.foldr insertScored []

/-- `GatewayServer::aggregateAndRankResults`: collect-and-dedup, sort by
descending score, keep the first `max_results`. -/
def aggregateAndRankResults (results : List DataNodeResult)
    (query_terms : List (List Char)) (max_results : Nat) :
    List ScoredAddressRecord :=
  (sortScored (collectScored results query_terms)).take max_results

/-- Descending order by score, as a `Pairwise` statement. -/
def ScoreSorted (l : List ScoredAddressRecord) : Prop :=
  l.Pairwise (fun a b => b.relevance_score ≤ a.relevance_score)

/-! ### Claim C4: deduplication -/

/-- The duplicate key: the fields `isDuplicate` compares (`unit` ignored). -/
def dupKey (r : ProtoAddressRecord) :
    List Char × List Char × List Char × List Char :=
  (r.number, r.street, r.city, r.postcode)

/-- The claim's keep policy between two duplicates: the later record wins
only with a strictly higher score; ties keep the first seen. -/
def keepBetter (a b : ScoredAddressRecord) : ScoredAddressRecord :=
  if b.relevance_score > a.relevance_score then b else a

/-- The stream of scored records the collection phase processes, in arrival
order: records of successful shards with their shard and score attached. -/
def scoredStream (results : List DataNodeResult)
    (query_terms : List (List Char)) : List ScoredAddressRecord :=
  results.flatMap (fun res =>
    if res.success then
      res.records.map
        (fun r => ⟨r, res.shard_id, calculateRelevanceScore r query_terms⟩)
    else [])

/-- The surviving representative of a duplicate class, as the claim words
it: among the stream records with this key, fold the keep policy from the
first seen. -/
def classRep (k : List Char × List Char × List Char × List Char)
    (stream : List ScoredAddressRecord) : Option ScoredAddressRecord :=
  match stream.filter (fun s => decide (dupKey s.record = k)) with
  | [] => none
  | c :: cs => some (cs.foldl keepBetter c)

/-- First record with the given duplicate key. -/
def findKey (k : List Char × List Char × List Char × List Char)
    (l : List ScoredAddressRecord) : Option ScoredAddressRecord :=
  l.find? (fun s => decide (dupKey s.record = k))

/-- No two records in the list are duplicates of one another. -/
def NoDupRecords (l : List ScoredAddressRecord) : Prop :=
  l.Pairwise (fun a b => isDuplicate a.record b.record = false)

/-! ## The `/api/findAddress` handler (web/README.md, `setupRoutes`)

The request body is modelled as `Option JsonValue` (`none` = body that
`crow::json::load` rejects).  Crow's rvalue accessors are modelled by
`jhas` (key presence in an object, false on non-objects) and `jstrOpt`
(`.s()`, which raises on a non-string value — the raised exception lands in
the handler's catch-all, producing the 500 response; the exact library
message text is abstracted by a constant). -/

inductive JsonValue where
  | jnull
  | jbool (b : Bool)
  | jnum (q : ℚ)
  | jstr (s : List Char)
  | jarr (elems : List JsonValue)
  | jobj (fields : List (List Char × JsonValue))

def jhas (v : JsonValue) (k : List Char) : Bool :=
  match v with
  | .jobj fields => fields.any (fun f => decide (f.1 = k))
  | _ => false

def jget (v : JsonValue) (k : List Char) : Option JsonValue :=
  match v with
  | .jobj fields => (fields.find? (fun f => decide (f.1 = k))).map (fun f => f.2)
  | _ => none

def jstrOpt : JsonValue → Option (List Char)
  | .jstr s => some s
  | _ => none

def addressKey : List Char := ("address").toList

def msgInvalidJson : List Char := ("Invalid JSON in request body").toList

def msgMissing : List Char := ("Missing 'address' field in request body").toList

def msgEmpty : List Char := ("Address keyword cannot be empty").toList

def msgNoTerms : List Char :=
  ("Address keyword must contain at least one term").toList

def msgAllFailed : List Char := ("All data nodes failed to respond").toList

def msgInternal : List Char := ("Internal server error").toList

/-- The `details` carried by the 500 response when `.s()` raises on a
non-string address value (stands for the library's `e.what()` text). -/
def msgNotAString : List Char := ("address value is not a string").toList

/-- The standard response body of `findAddress` (the `results` array is the
ranked list; `result_count` its length). -/
structure FindAddressBody where
  query : List Char
  query_terms : List (List Char)
  results : List ScoredAddressRecord
  result_count : Nat
  successful_nodes : Nat
  failed_nodes : Nat
  error : Option (List Char)

inductive FindAddressResponse where
  | clientError (status : Nat) (error : List Char)
  | serverError (status : Nat) (error details : List Char)
  | results (status : Nat) (body : FindAddressBody)

/-- The back half of the `findAddress` handler, from the empty-terms check
on: fan-out (`fanout` stands for `queryAllDataNodes`), node counting,
aggregation with `max_results = 5`, and the status-code policy. -/
def runSearchStage (address : List Char) (query_terms : List (List Char))
    (fanout : List (List Char) → List DataNodeResult) : FindAddressResponse :=
  if query_terms = [] then .clientError 400 msgNoTerms
  else
    let nodeResults := fanout query_terms
    let successful := (nodeResults.filter (fun r => r.success)).length
    let failed := (nodeResults.filter (fun r => !r.success)).length
    let ranked := aggregateAndRankResults nodeResults query_terms 5
    if failed > 0 ∧ successful = 0 then
      .results 503 ⟨address, query_terms, ranked, ranked.length,
        successful, failed, some msgAllFailed⟩
    else if failed > 0 then
      .results 207 ⟨address, query_terms, ranked, ranked.length,
        successful, failed, none⟩
    else
      .results 200 ⟨address, query_terms, ranked, ranked.length,
        successful, failed, none⟩

/-- The `POST /api/findAddress` handler: JSON validation, address
extraction, term construction (single structured term on a comma, otherwise
whitespace tokens), then the search stage. -/
def findAddressHandler (body? : Option JsonValue)
    (fanout : List (List Char) → List DataNodeResult) : FindAddressResponse :=
  match body? with
  | none => .clientError 400 msgInvalidJson
  | some body =>
    if jhas body addressKey = false then .clientError 400 msgMissing
    else
      match (jget body addressKey).bind jstrOpt with
      | none => .serverError 500 msgInternal msgNotAString
      | some address =>
        if address = [] then .clientError 400 msgEmpty
        else
          runSearchStage address
            (if ',' ∈ address then [address] else splitWs address) fanout

def c3body : Option JsonValue :=
  some (JsonValue.jobj [(addressKey, JsonValue.jstr (("MAIN").toList))])

def c3fanout : List (List Char) → List DataNodeResult :=
  fun _ => [⟨0, true, [], []⟩]

def c3fb : FindAddressBody :=
  ⟨("MAIN").toList, [("MAIN").toList], [], 0, 1, 0, none⟩

def c7nonStringBody : Option JsonValue :=
  some (JsonValue.jobj [(addressKey, JsonValue.jnum 5)])

theorem toNat_upperChar_of_lower {c : Char} (h1 : 97 ≤ c.toNat) (h2 : c.toNat ≤ 122) :
    (upperChar c).toNat = c.toNat - 32 := by
  unfold upperChar
  rw [if_pos ⟨h1, h2⟩]
  have hv : Nat.isValidChar (c.toNat - 32) := Or.inl (by omega)
  unfold Char.ofNat
  simp only [hv, dite_true]
  rfl

theorem upperChar_not_lower (c : Char) : isLowerC (upperChar c) = false := by
  by_cases h : 97 ≤ c.toNat ∧ c.toNat ≤ 122
  · have := toNat_upperChar_of_lower h.1 h.2
    simp only [isLowerC, Bool.and_eq_false_iff, decide_eq_false_iff_not]
    left
    omega
  · unfold upperChar
    rw [if_neg h]
    simp only [isLowerC, Bool.and_eq_false_iff, decide_eq_false_iff_not]
    omega

theorem upperChar_eq_of_not_lower {c : Char} (h : isLowerC c = false) :
    upperChar c = c := by
  unfold upperChar
  simp only [isLowerC, Bool.and_eq_false_iff, decide_eq_false_iff_not] at h
  rw [if_neg]
  omega

theorem isSpaceC_upperChar (c : Char) : isSpaceC (upperChar c) = isSpaceC c := by
  by_cases h : 97 ≤ c.toNat ∧ c.toNat ≤ 122
  · have hu := toNat_upperChar_of_lower h.1 h.2
    have l : isSpaceC (upperChar c) = false := by
      simp only [isSpaceC, Bool.or_eq_false_iff, decide_eq_false_iff_not]
      omega
    have r : isSpaceC c = false := by
      simp only [isSpaceC, Bool.or_eq_false_iff, decide_eq_false_iff_not]
      omega
    rw [l, r]
  · unfold upperChar
    rw [if_neg h]

/-! ### Facts about the normalizer (claim C9) -/

theorem mem_collapseGo {c : Char} : ∀ {s : List Char} {b : Bool},
    c ∈ collapseGo s b → c ∈ s ∨ c = ' '
  | [], b, h => by simp [collapseGo] at h
  | d :: ds, b, h => by
    unfold collapseGo at h
    by_cases hd : isSpaceC d
    · rw [if_pos hd] at h
      by_cases hb : b
      · subst hb
        rw [if_pos rfl] at h
        rcases mem_collapseGo h with h1 | h1
        · exact Or.inl (List.mem_cons_of_mem _ h1)
        · exact Or.inr h1
      · simp only [Bool.not_eq_true] at hb
        subst hb
        simp only [Bool.false_eq_true, if_false, List.mem_cons] at h
        rcases h with h | h
        · exact Or.inr h
        · rcases mem_collapseGo h with h1 | h1
          · exact Or.inl (List.mem_cons_of_mem _ h1)
          · exact Or.inr h1
    · rw [if_neg hd] at h
      rcases List.mem_cons.mp h with h | h
      · exact Or.inl (h ▸ List.mem_cons_self _ _)
      · rcases mem_collapseGo h with h1 | h1
        · exact Or.inl (List.mem_cons_of_mem _ h1)
        · exact Or.inr h1

theorem mem_trimWhitespace {c : Char} {s : List Char}
    (h : c ∈ trimWhitespace s) : c ∈ s := by
  unfold trimWhitespace at h
  rw [List.mem_reverse] at h
  have h1 := List.dropWhile_sublist (l := (s.dropWhile isSpaceC).reverse) (p := isSpaceC)
  have h2 := h1.mem h
  rw [List.mem_reverse] at h2
  exact (List.dropWhile_sublist (l := s) (p := isSpaceC)).mem h2

theorem head?_dropWhile {p : Char → Bool} : ∀ {s : List Char} {c : Char},
    (s.dropWhile p).head? = some c → p c = false
  | [], c, h => by simp [List.dropWhile] at h
  | d :: ds, c, h => by
    rw [List.dropWhile_cons] at h
    by_cases hd : p d
    · rw [if_pos hd] at h
      exact head?_dropWhile h
    · rw [if_neg hd] at h
      simp only [List.head?_cons, Option.some.injEq] at h
      subst h
      simpa using hd

/-- Dropping trailing whitespace only removes a suffix, so the result is a
prefix of the original list. -/
theorem dropTrailing_isPrefix (p : Char → Bool) (l : List Char) :
    (l.reverse.dropWhile p).reverse <+: l := by
  have h1 : l.reverse.dropWhile p <:+ l.reverse := List.dropWhile_suffix p
  have h2 : (l.reverse.dropWhile p).reverse <+: l.reverse.reverse :=
    List.reverse_prefix.mpr h1
  simpa using h2

theorem head?_trimWhitespace {s : List Char} {c : Char}
    (h : (trimWhitespace s).head? = some c) : isSpaceC c = false := by
  unfold trimWhitespace at h
  rcases hs : (s.dropWhile isSpaceC) with _ | ⟨d, ds⟩
  · rw [hs] at h
    simp at h
  · have hd : isSpaceC d = false := by
      apply head?_dropWhile (s := s)
      rw [hs, List.head?_cons]
    rw [hs] at h
    have hpre := dropTrailing_isPrefix isSpaceC (d :: ds)
    rcases hpre with ⟨t, ht2⟩
    rcases ht : ((d :: ds).reverse.dropWhile isSpaceC).reverse with _ | ⟨e, es⟩
    · rw [ht] at h
      simp at h
    · rw [ht] at h
      simp only [List.head?_cons, Option.some.injEq] at h
      subst h
      rw [ht] at ht2
      simp only [List.cons_append, List.cons.injEq] at ht2
      rw [ht2.1]
      exact hd

theorem getLast?_trimWhitespace {s : List Char} {c : Char}
    (h : (trimWhitespace s).getLast? = some c) : isSpaceC c = false := by
  unfold trimWhitespace at h
  rw [List.getLast?_reverse] at h
  exact head?_dropWhile h

theorem wsOk_tail {c : Char} {cs : List Char} (h : wsOk (c :: cs) = true) :
    wsOk cs = true := by
  unfold wsOk at h
  exact (Bool.and_eq_true_iff.mp h).2

theorem wsOk_space_head {c : Char} {cs : List Char} (h : wsOk (c :: cs) = true)
    (hc : isSpaceC c = true) :
    c = ' ' ∧ ∀ d, cs.head? = some d → isSpaceC d = false := by
  unfold wsOk at h
  rw [if_pos hc] at h
  rcases Bool.and_eq_true_iff.mp h with ⟨h1, _⟩
  rcases Bool.and_eq_true_iff.mp h1 with ⟨h2, h3⟩
  refine ⟨by simpa using h2, ?_⟩
  intro d hd
  rw [hd] at h3
  simpa using h3

theorem collapseGo_fix : ∀ (s : List Char) (b : Bool), wsOk s = true →
    (b = true → ∀ c, s.head? = some c → isSpaceC c = false) →
    collapseGo s b = s
  | [], b, _, _ => rfl
  | c :: cs, b, hws, hb => by
    unfold collapseGo
    by_cases hc : isSpaceC c
    · rcases wsOk_space_head hws hc with ⟨hsp, hnext⟩
      have hbf : b = false := by
        cases b with
        | false => rfl
        | true => exact absurd (hb rfl c rfl) (by simp [hc])
      subst hbf
      rw [if_pos hc]
      simp only [Bool.false_eq_true, if_false]
      rw [collapseGo_fix cs true (wsOk_tail hws) (fun _ => hnext), hsp]
    · rw [if_neg hc]
      rw [collapseGo_fix cs false (wsOk_tail hws) (by simp)]

theorem collapseGo_head_true : ∀ (s : List Char) {c : Char},
    (collapseGo s true).head? = some c → isSpaceC c = false
  | [], c, h => by simp [collapseGo] at h
  | d :: ds, c, h => by
    unfold collapseGo at h
    by_cases hd : isSpaceC d
    · rw [if_pos hd, if_pos rfl] at h
      exact collapseGo_head_true ds h
    · rw [if_neg hd] at h
      simp only [List.head?_cons, Option.some.injEq] at h
      subst h
      simpa using hd

theorem collapseGo_wsOk : ∀ (s : List Char) (b : Bool),
    wsOk (collapseGo s b) = true
  | [], _ => rfl
  | c :: cs, b => by
    unfold collapseGo
    by_cases hc : isSpaceC c
    · rw [if_pos hc]
      cases b with
      | true => exact collapseGo_wsOk cs true
      | false =>
        simp only [Bool.false_eq_true, if_false]
        unfold wsOk
        have hsp : isSpaceC ' ' = true := by decide
        rw [if_pos hsp]
        refine Bool.and_eq_true_iff.mpr ⟨Bool.and_eq_true_iff.mpr ⟨by decide, ?_⟩,
          collapseGo_wsOk cs true⟩
        rcases hh : (collapseGo cs true).head? with _ | d
        · rfl
        · have := collapseGo_head_true cs hh
          simpa using this
    · rw [if_neg hc]
      unfold wsOk
      rw [if_neg hc]
      simpa using collapseGo_wsOk cs false

theorem collapseGo_head_of_not_space {c : Char} {cs : List Char} (b : Bool)
    (hc : isSpaceC c = false) :
    (collapseGo (c :: cs) b).head? = some c := by
  unfold collapseGo
  rw [if_neg (by simp [hc])]
  rfl

theorem collapseGo_ne_nil : ∀ (s : List Char) (b : Bool) {c : Char},
    s.getLast? = some c → isSpaceC c = false → collapseGo s b ≠ []
  | [], b, c, h, _ => by simp at h
  | [d], b, c, h, hns => by
    simp only [List.getLast?_singleton, Option.some.injEq] at h
    subst h
    unfold collapseGo
    rw [if_neg (by simp [hns])]
    simp
  | d :: e :: ds, b, c, h, hns => by
    rw [List.getLast?_cons_cons] at h
    unfold collapseGo
    by_cases hd : isSpaceC d
    · rw [if_pos hd]
      cases b with
      | true => exact collapseGo_ne_nil (e :: ds) true h hns
      | false =>
        simp only [Bool.false_eq_true, if_false]
        simp
    · rw [if_neg hd]
      simp

theorem collapseGo_getLast : ∀ (s : List Char) (b : Bool),
    (∀ c, s.getLast? = some c → isSpaceC c = false) →
    ∀ e, (collapseGo s b).getLast? = some e → isSpaceC e = false
  | [], b, _, e, he => by simp [collapseGo] at he
  | [d], b, hlast, e, he => by
    have hd : isSpaceC d = false := hlast d (by simp)
    unfold collapseGo at he
    rw [if_neg (by simp [hd])] at he
    simp only [collapseGo, List.getLast?_singleton, Option.some.injEq] at he
    subst he
    exact hd
  | d :: f :: ds, b, hlast, e, he => by
    have hlast' : ∀ c, (f :: ds).getLast? = some c → isSpaceC c = false := by
      intro c hc
      exact hlast c (by rw [List.getLast?_cons_cons]; exact hc)
    have hgl : ∃ g, (f :: ds).getLast? = some g :=
      Option.isSome_iff_exists.mp (List.getLast?_isSome.mpr (by simp))
    rcases hgl with ⟨g, hg⟩
    have hgns : isSpaceC g = false := hlast' g hg
    have hne : collapseGo (f :: ds) true ≠ [] := collapseGo_ne_nil _ true hg hgns
    have hne' : collapseGo (f :: ds) false ≠ [] := collapseGo_ne_nil _ false hg hgns
    unfold collapseGo at he
    by_cases hd : isSpaceC d
    · rw [if_pos hd] at he
      cases b with
      | true => exact collapseGo_getLast (f :: ds) true hlast' e he
      | false =>
        simp only [Bool.false_eq_true, if_false] at he
        rcases hx : collapseGo (f :: ds) true with _ | ⟨y, ys⟩
        · exact absurd hx hne
        · rw [hx, List.getLast?_cons_cons] at he
          rw [← hx] at he
          exact collapseGo_getLast (f :: ds) true hlast' e he
    · rw [if_neg hd] at he
      rcases hx : collapseGo (f :: ds) false with _ | ⟨y, ys⟩
      · exact absurd hx hne'
      · rw [hx, List.getLast?_cons_cons] at he
        rw [← hx] at he
        exact collapseGo_getLast (f :: ds) false hlast' e he

theorem dropWhile_eq_self_of_head {p : Char → Bool} : ∀ {s : List Char},
    (∀ c, s.head? = some c → p c = false) → s.dropWhile p = s
  | [], _ => rfl
  | c :: cs, h => by
    rw [List.dropWhile_cons, if_neg]
    simp [h c rfl]

theorem trimWhitespace_fix {s : List Char}
    (hhead : ∀ c, s.head? = some c → isSpaceC c = false)
    (hlast : ∀ c, s.getLast? = some c → isSpaceC c = false) :
    trimWhitespace s = s := by
  unfold trimWhitespace
  rw [dropWhile_eq_self_of_head hhead]
  rw [dropWhile_eq_self_of_head (by
    intro c hc
    rw [List.head?_reverse] at hc
    exact hlast c hc)]
  exact List.reverse_reverse s

theorem toUpperCase_fix {s : List Char}
    (h : s.all (fun c => !(isLowerC c)) = true) : toUpperCase s = s := by
  unfold toUpperCase
  have : ∀ c ∈ s, upperChar c = c := by
    intro c hc
    have := (List.all_eq_true.mp h) c hc
    exact upperChar_eq_of_not_lower (by simpa using this)
  calc s.map upperChar = s.map id := List.map_congr_left this
    _ = s := List.map_id s

/-- `normalize` always produces a string in normalized form. -/
theorem isNormalized_normalize (s : List Char) :
    isNormalized (normalize s) = true := by
  unfold isNormalized normalize collapseWhitespace
  refine Bool.and_eq_true_iff.mpr ⟨Bool.and_eq_true_iff.mpr
    ⟨Bool.and_eq_true_iff.mpr ⟨?_, ?_⟩, ?_⟩, collapseGo_wsOk _ _⟩
  · -- no lowercase letters survive
    rw [List.all_eq_true]
    intro c hc
    rcases mem_collapseGo hc with h1 | h1
    · have h2 := mem_trimWhitespace h1
      unfold toUpperCase at h2
      rcases List.mem_map.mp h2 with ⟨d, _, hd⟩
      rw [← hd]
      simp [upperChar_not_lower]
    · subst h1
      decide
  · -- the head is not whitespace
    rcases ht : trimWhitespace (toUpperCase s) with _ | ⟨d, ds⟩
    · simp [collapseGo]
    · have hd : isSpaceC d = false := head?_trimWhitespace (by rw [ht]; rfl)
      have := @collapseGo_head_of_not_space d ds false hd
      rw [this]
      simp [hd]
  · -- the last character is not whitespace
    rcases hl : (collapseGo (trimWhitespace (toUpperCase s)) false).getLast? with _ | e
    · rfl
    · have := collapseGo_getLast (trimWhitespace (toUpperCase s)) false
        (fun c hc => getLast?_trimWhitespace hc) e hl
      simpa using this

/-- A string in normalized form is a fixed point of `normalize`. -/
theorem normalize_fix {s : List Char} (h : isNormalized s = true) :
    normalize s = s := by
  unfold isNormalized at h
  rcases Bool.and_eq_true_iff.mp h with ⟨h1, hws⟩
  rcases Bool.and_eq_true_iff.mp h1 with ⟨h2, hlast⟩
  rcases Bool.and_eq_true_iff.mp h2 with ⟨hall, hhead⟩
  have hheadf : ∀ c, s.head? = some c → isSpaceC c = false := by
    intro c hc
    rw [hc] at hhead
    simpa using hhead
  have hlastf : ∀ c, s.getLast? = some c → isSpaceC c = false := by
    intro c hc
    rw [hc] at hlast
    simpa using hlast
  unfold normalize collapseWhitespace
  rw [toUpperCase_fix hall, trimWhitespace_fix hheadf hlastf,
    collapseGo_fix s false hws (by simp)]

/-- **Claim C9.** `normalize` is idempotent, every string already in
normalized form is a fixed point of `normalize`, and `normalize` of the empty
string is the empty string. -/
theorem claim_C9_normalize_idempotent :
    (∀ x : List Char, normalize (normalize x) = normalize x) ∧
    (∀ n : List Char, isNormalized n = true → normalize n = n) ∧
    normalize [] = [] :=
  ⟨fun x => normalize_fix (isNormalized_normalize x),
   fun _ h => normalize_fix h,
   rfl⟩

@[simp] theorem RadixNode.label_node (l : List Char) (i : List Nat)
    (cs : List RadixNode) : (RadixNode.node l i cs).label = l := rfl

@[simp] theorem RadixNode.ids_node (l : List Char) (i : List Nat)
    (cs : List RadixNode) : (RadixNode.node l i cs).ids = i := rfl

@[simp] theorem RadixNode.children_node (l : List Char) (i : List Nat)
    (cs : List RadixNode) : (RadixNode.node l i cs).children = cs := rfl

/-! ### Basic facts about the trie building blocks -/

theorem commonPrefixLen_le_left : ∀ (a b : List Char), commonPrefixLen a b ≤ a.length
  | [], _ => by simp [commonPrefixLen]
  | _ :: _, [] => by simp [commonPrefixLen]
  | x :: xs, y :: ys => by
    unfold commonPrefixLen
    by_cases h : x = y
    · rw [if_pos h]
      simpa using commonPrefixLen_le_left xs ys
    · rw [if_neg h]
      simp

theorem commonPrefixLen_le_right : ∀ (a b : List Char), commonPrefixLen a b ≤ b.length
  | [], _ => by simp [commonPrefixLen]
  | _ :: _, [] => by simp [commonPrefixLen]
  | x :: xs, y :: ys => by
    unfold commonPrefixLen
    by_cases h : x = y
    · rw [if_pos h]
      simpa using commonPrefixLen_le_right xs ys
    · rw [if_neg h]
      simp

theorem commonPrefixLen_take_eq : ∀ (a b : List Char),
    a.take (commonPrefixLen a b) = b.take (commonPrefixLen a b)
  | [], b => by simp [commonPrefixLen]
  | _ :: _, [] => by simp [commonPrefixLen]
  | x :: xs, y :: ys => by
    unfold commonPrefixLen
    by_cases h : x = y
    · rw [if_pos h]
      simp only [List.take_succ_cons, h]
      rw [commonPrefixLen_take_eq xs ys]
    · rw [if_neg h]
      simp

theorem commonPrefixLen_cons (x y : Char) (xs ys : List Char) :
    commonPrefixLen (x :: xs) (y :: ys) =
      if x = y then commonPrefixLen xs ys + 1 else 0 := rfl

theorem commonPrefixLen_drop_head_ne : ∀ (a b : List Char),
    commonPrefixLen a b < a.length → commonPrefixLen a b < b.length →
    (a.drop (commonPrefixLen a b)).head? ≠ (b.drop (commonPrefixLen a b)).head?
  | [], b, ha, _ => by simp at ha
  | _ :: _, [], _, hb => by simp at hb
  | x :: xs, y :: ys, ha, hb => by
    by_cases h : x = y
    · rw [commonPrefixLen_cons, if_pos h] at ha hb ⊢
      simp only [List.drop_succ_cons]
      exact commonPrefixLen_drop_head_ne xs ys (by simpa using ha) (by simpa using hb)
    · rw [commonPrefixLen_cons, if_neg h]
      simp only [List.drop_zero, List.head?_cons, ne_eq, Option.some.injEq]
      exact h

theorem commonPrefixLen_zero_head_ne {a b : List Char}
    (h : commonPrefixLen a b = 0) (ha : a ≠ []) (hb : b ≠ []) :
    a.head? ≠ b.head? := by
  rcases a with _ | ⟨x, xs⟩
  · exact absurd rfl ha
  · rcases b with _ | ⟨y, ys⟩
    · exact absurd rfl hb
    · unfold commonPrefixLen at h
      by_cases hxy : x = y
      · rw [if_pos hxy] at h
        omega
      · simp only [List.head?_cons, ne_eq, Option.some.injEq]
        exact hxy

theorem insertNat_perm (x : Nat) : ∀ (l : List Nat), (insertNat x l).Perm (x :: l)
  | [] => List.Perm.refl _
  | y :: ys => by
    unfold insertNat
    by_cases h : x ≤ y
    · rw [if_pos h]
    · rw [if_neg h]
      exact ((insertNat_perm x ys).cons y).trans (List.Perm.swap x y ys)

theorem sortNat_perm (l : List Nat) : (sortNat l).Perm l := by
  induction l with
  | nil => exact List.Perm.refl _
  | cons x xs ih =>
    unfold sortNat
    exact (insertNat_perm x _).trans (ih.cons x)

theorem mem_addId {x id : Nat} {ids : List Nat} :
    x ∈ addId id ids ↔ x = id ∨ x ∈ ids := by
  unfold addId
  by_cases h : id ∈ ids
  · rw [if_pos h]
    constructor
    · exact Or.inr
    · rintro (rfl | hx)
      · exact h
      · exact hx
  · rw [if_neg h]
    rw [(sortNat_perm _).mem_iff]
    simp [or_comm]

theorem insertChild_perm (c : RadixNode) : ∀ (cs : List RadixNode),
    (insertChild c cs).Perm (c :: cs)
  | [] => List.Perm.refl _
  | d :: ds => by
    unfold insertChild
    by_cases h : lexLt c.label d.label
    · rw [if_pos h]
    · rw [if_neg h]
      exact ((insertChild_perm c ds).cons d).trans (List.Perm.swap c d ds)

theorem sortChildren_perm (cs : List RadixNode) : (sortChildren cs).Perm cs := by
  induction cs with
  | nil => exact List.Perm.refl _
  | cons c rest ih =>
    unfold sortChildren
    exact (insertChild_perm c _).trans (ih.cons c)

theorem label_insertGo (n : RadixNode) (rem : List Char) (id : Nat) :
    (insertGo n rem id).label = n.label := by
  rcases n with ⟨l, ids, cs⟩
  rcases rem with _ | ⟨r, rs⟩
  · rfl
  · unfold insertGo
    rcases insertChildren cs (r :: rs) id with _ | cs' <;> rfl

theorem Inv.headsDistinct {l ids cs} (h : Inv (.node l ids cs)) :
    HeadsDistinct cs := by
  cases h
  assumption

theorem Inv.labels_ne {l ids cs} (h : Inv (.node l ids cs)) :
    ∀ c ∈ cs, RadixNode.label c ≠ [] := by
  cases h
  assumption

theorem Inv.children_inv {l ids cs} (h : Inv (.node l ids cs)) :
    ∀ c ∈ cs, Inv c := by
  cases h
  assumption

/-- `HasKey` does not depend on the node's own edge label. -/
theorem hasKey_relabel {l l' : List Char} {ids : List Nat} {cs : List RadixNode}
    {w : List Char} {id : Nat} (h : HasKey (.node l ids cs) w id) :
    HasKey (.node l' ids cs) w id := by
  cases h with
  | here _ _ _ _ hid => exact HasKey.here _ _ _ _ hid
  | via _ _ _ c w' _ hc hk => exact HasKey.via _ _ _ c w' _ hc hk

/-- `Inv` does not depend on the node's own edge label or IDs. -/
theorem inv_relabel {l l' : List Char} {ids ids' : List Nat}
    {cs : List RadixNode} (h : Inv (.node l ids cs)) :
    Inv (.node l' ids' cs) := by
  cases h with
  | mk _ _ _ h1 h2 h3 => exact Inv.mk _ _ _ h1 h2 h3

theorem hasKey_node_iff {l : List Char} {ids : List Nat} {cs : List RadixNode}
    {w : List Char} {id : Nat} :
    HasKey (.node l ids cs) w id ↔
      (w = [] ∧ id ∈ ids) ∨
      (∃ c ∈ cs, ∃ w', w = RadixNode.label c ++ w' ∧ HasKey c w' id) := by
  constructor
  · intro h
    cases h with
    | here _ _ _ _ hid => exact Or.inl ⟨rfl, hid⟩
    | via _ _ _ c w' _ hc hk => exact Or.inr ⟨c, hc, w', rfl, hk⟩
  · rintro (⟨rfl, hid⟩ | ⟨c, hc, w', rfl, hk⟩)
    · exact HasKey.here _ _ _ _ hid
    · exact HasKey.via _ _ _ c w' _ hc hk

/-! ### Membership in `collectAllIds` -/

theorem mem_foldl_dedup : ∀ (ids : List Nat) (acc : List Nat) (x : Nat),
    (x ∈ ids.foldl (fun a y => if y ∈ a then a else a ++ [y]) acc) ↔
      x ∈ acc ∨ x ∈ ids
  | [], acc, x => by simp
  | i :: is, acc, x => by
    rw [List.foldl_cons, mem_foldl_dedup is _ x]
    by_cases h : i ∈ acc
    · rw [if_pos h]
      constructor
      · rintro (ha | hi)
        · exact Or.inl ha
        · exact Or.inr (List.mem_cons_of_mem _ hi)
      · rintro (ha | hi)
        · exact Or.inl ha
        · rcases List.mem_cons.mp hi with rfl | hi
          · exact Or.inl h
          · exact Or.inr hi
    · rw [if_neg h]
      simp only [List.mem_append, List.mem_singleton, List.mem_cons]
      tauto

mutual

theorem mem_collectIds (n : RadixNode) (acc : List Nat) (x : Nat) :
    x ∈ collectIds n acc ↔ x ∈ acc ∨ ∃ w, HasKey n w x := by
  rcases n with ⟨l, ids, cs⟩
  rw [collectIds]
  rw [mem_collectList cs _ x, mem_foldl_dedup]
  constructor
  · rintro ((ha | hi) | ⟨c, hc, w, hk⟩)
    · exact Or.inl ha
    · exact Or.inr ⟨[], HasKey.here _ _ _ _ hi⟩
    · exact Or.inr ⟨RadixNode.label c ++ w, HasKey.via _ _ _ c w _ hc hk⟩
  · rintro (ha | ⟨w, hk⟩)
    · exact Or.inl (Or.inl ha)
    · rcases hasKey_node_iff.mp hk with ⟨_, hi⟩ | ⟨c, hc, w', _, hk'⟩
      · exact Or.inl (Or.inr hi)
      · exact Or.inr ⟨c, hc, w', hk'⟩
termination_by sizeOf n

theorem mem_collectList (cs : List RadixNode) (acc : List Nat) (x : Nat) :
    x ∈ collectList cs acc ↔ x ∈ acc ∨ ∃ c ∈ cs, ∃ w, HasKey c w x := by
  match cs with
  | [] => simp [collectList]
  | c :: rest =>
    rw [collectList]
    rw [mem_collectList rest _ x, mem_collectIds c acc x]
    constructor
    · rintro ((ha | ⟨w, hk⟩) | ⟨d, hd, w, hk⟩)
      · exact Or.inl ha
      · exact Or.inr ⟨c, List.mem_cons_self _ _, w, hk⟩
      · exact Or.inr ⟨d, List.mem_cons_of_mem _ hd, w, hk⟩
    · rintro (ha | ⟨d, hd, w, hk⟩)
      · exact Or.inl (Or.inl ha)
      · rcases List.mem_cons.mp hd with rfl | hd
        · exact Or.inl (Or.inr ⟨w, hk⟩)
        · exact Or.inr ⟨d, hd, w, hk⟩
termination_by sizeOf cs

end

/-! ### Correctness of prefix search -/

theorem prefix_head?_eq {l1 l2 : List Char} (h : l1 <+: l2) (hne : l1 ≠ []) :
    l1.head? = l2.head? := by
  rcases l1 with _ | ⟨x, xs⟩
  · exact absurd rfl hne
  · rcases h with ⟨t, ht⟩
    rw [← ht]
    rfl

/-- A child whose label's first character differs from the query's first
character can neither complete nor consume the query. -/
theorem searchChild_skip {c : RadixNode} {rem : List Char}
    (hrem : rem ≠ []) (hlab : RadixNode.label c ≠ [])
    (hne : (RadixNode.label c).head? ≠ rem.head?) :
    (rem.isPrefixOf (RadixNode.label c)) = false ∧
    ((RadixNode.label c).isPrefixOf rem) = false := by
  constructor
  · by_contra hcon
    rw [Bool.not_eq_false] at hcon
    have := prefix_head?_eq (List.isPrefixOf_iff_prefix.mp hcon) hrem
    exact hne this.symm
  · by_contra hcon
    rw [Bool.not_eq_false] at hcon
    have := prefix_head?_eq (List.isPrefixOf_iff_prefix.mp hcon) hlab
    exact hne this

theorem searchChildren_no_match : ∀ {cs : List RadixNode} {rem : List Char},
    rem ≠ [] → (∀ d ∈ cs, RadixNode.label d ≠ []) →
    (∀ d ∈ cs, (RadixNode.label d).head? ≠ rem.head?) →
    searchChildren cs rem = []
  | [], rem, _, _, _ => by rw [searchChildren]
  | c :: rest, rem, hrem, hlab, hne => by
    rw [searchChildren]
    have hskip := searchChild_skip hrem (hlab c (List.mem_cons_self _ _))
      (hne c (List.mem_cons_self _ _))
    by_cases hlen : rem.length ≤ (RadixNode.label c).length
    · rw [if_pos hlen, hskip.1]
      simp only [Bool.false_eq_true, if_false]
      exact searchChildren_no_match hrem
        (fun d hd => hlab d (List.mem_cons_of_mem _ hd))
        (fun d hd => hne d (List.mem_cons_of_mem _ hd))
    · rw [if_neg hlen, hskip.2]
      simp only [Bool.false_eq_true, if_false]
      exact searchChildren_no_match hrem
        (fun d hd => hlab d (List.mem_cons_of_mem _ hd))
        (fun d hd => hne d (List.mem_cons_of_mem _ hd))

/-- With pairwise-distinct child head characters the loop of `searchHelper`
acts exactly on the unique child whose label starts with the query's first
character. -/
theorem searchChildren_found : ∀ {cs : List RadixNode} {rem : List Char}
    {c : RadixNode}, c ∈ cs → rem ≠ [] →
    (∀ d ∈ cs, RadixNode.label d ≠ []) → HeadsDistinct cs →
    rem.head? = (RadixNode.label c).head? →
    searchChildren cs rem =
      if rem.length ≤ (RadixNode.label c).length then
        (if rem.isPrefixOf (RadixNode.label c) then collectIds c [] else [])
      else
        (if (RadixNode.label c).isPrefixOf rem then
          searchGo c (rem.drop (RadixNode.label c).length) else [])
  | d :: rest, rem, c, hc, hrem, hlab, hdist, hhead => by
    have hdist' : HeadsDistinct rest := by
      unfold HeadsDistinct at hdist ⊢
      rw [List.map_cons, List.pairwise_cons] at hdist
      exact hdist.2
    rcases List.mem_cons.mp hc with rfl | hc
    · -- the matching child is at the head of the list
      rw [searchChildren]
      have hrest_ne : ∀ e ∈ rest, (RadixNode.label e).head? ≠ rem.head? := by
        intro e he
        unfold HeadsDistinct at hdist
        rw [List.map_cons, List.pairwise_cons] at hdist
        have := hdist.1 ((RadixNode.label e).head?) (List.mem_map_of_mem _ he)
        rw [hhead]
        exact fun hcon => this hcon.symm
      have hrest := searchChildren_no_match hrem
        (fun e he => hlab e (List.mem_cons_of_mem _ he)) hrest_ne
      by_cases hlen : rem.length ≤ (RadixNode.label c).length
      · rw [if_pos hlen, if_pos hlen]
        by_cases hp : rem.isPrefixOf (RadixNode.label c)
        · rw [hp]
          simp
        · rw [Bool.not_eq_true] at hp
          rw [hp]
          simp only [Bool.false_eq_true, if_false]
          exact hrest
      · rw [if_neg hlen, if_neg hlen]
        by_cases hp : (RadixNode.label c).isPrefixOf rem
        · rw [hp]
          simp
        · rw [Bool.not_eq_true] at hp
          rw [hp]
          simp only [Bool.false_eq_true, if_false]
          exact hrest
    · -- the matching child is further along; the head child is skipped
      have hd_ne : (RadixNode.label d).head? ≠ rem.head? := by
        unfold HeadsDistinct at hdist
        rw [List.map_cons, List.pairwise_cons] at hdist
        have := hdist.1 ((RadixNode.label c).head?) (List.mem_map_of_mem _ hc)
        rw [hhead]
        exact this
      have hskip := searchChild_skip hrem (hlab d (List.mem_cons_self _ _)) hd_ne
      rw [searchChildren]
      have ih := searchChildren_found hc hrem
        (fun e he => hlab e (List.mem_cons_of_mem _ he)) hdist' hhead
      by_cases hlen : rem.length ≤ (RadixNode.label d).length
      · rw [if_pos hlen, hskip.1]
        simp only [Bool.false_eq_true, if_false]
        exact ih
      · rw [if_neg hlen, hskip.2]
        simp only [Bool.false_eq_true, if_false]
        exact ih

/-- Search completeness: in a well-formed trie, every non-empty prefix `p` of
a stored key word `w` leads to the ID stored under `w`. -/
theorem search_complete {n : RadixNode} {w : List Char} {id : Nat}
    (hk : HasKey n w id) : ∀ {p : List Char}, Inv n → p ≠ [] → p <+: w →
    id ∈ searchGo n p := by
  induction hk with
  | here l ids cs id hid =>
    intro p _ hp hpre
    rw [List.prefix_nil] at hpre
    exact absurd hpre hp
  | via l ids cs c w' id hc hk ih =>
    intro p hinv hp hpre
    have hlabne : RadixNode.label c ≠ [] := hinv.labels_ne c hc
    have hchead : p.head? = (RadixNode.label c).head? := by
      have h1 := prefix_head?_eq hpre hp
      have h2 : (RadixNode.label c) <+: (RadixNode.label c ++ w') :=
        List.prefix_append _ _
      have h3 := prefix_head?_eq h2 hlabne
      rw [h1, h3]
    rcases hpp : p with _ | ⟨r, rs⟩
    · exact absurd hpp hp
    rw [← hpp]
    have hsg : searchGo (.node l ids cs) p = searchChildren cs p := by
      rw [hpp, searchGo]
    rw [hsg]
    rw [searchChildren_found hc hp (hinv.labels_ne) (hinv.headsDistinct) hchead]
    by_cases hlen : p.length ≤ (RadixNode.label c).length
    · -- the whole remaining prefix sits inside this edge: collect the subtree
      rw [if_pos hlen]
      have hple : p <+: RadixNode.label c := by
        have := List.prefix_iff_eq_take.mp hpre
        rw [List.take_append_of_le_length hlen] at this
        rw [this]
        exact List.take_prefix _ _
      rw [List.isPrefixOf_iff_prefix.mpr hple, if_pos rfl]
      rw [mem_collectIds]
      exact Or.inr ⟨w', hk⟩
    · -- consume the edge label and descend
      rw [if_neg hlen]
      have hlp : RadixNode.label c <+: p :=
        List.prefix_of_prefix_length_le (List.prefix_append _ _) hpre (by omega)
      rw [List.isPrefixOf_iff_prefix.mpr hlp, if_pos rfl]
      have hdrop_pre : p.drop (RadixNode.label c).length <+: w' := by
        rcases hlp with ⟨t, ht⟩
        have hteq : p.drop (RadixNode.label c).length = t := by
          rw [← ht]
          simp
        rw [hteq]
        apply (List.prefix_append_right_inj (RadixNode.label c)).mp
        rw [ht]
        exact hpre
      have hdrop_ne : p.drop (RadixNode.label c).length ≠ [] := by
        have : p.length - (RadixNode.label c).length > 0 := by omega
        intro hcon
        have := List.length_drop (RadixNode.label c).length p
        rw [hcon] at this
        simp at this
        omega
      exact ih (hinv.children_inv c hc) hdrop_ne hdrop_pre

/-! ### Effect of `insertHelper` on the stored keys -/

theorem take_head? (l : List Char) (k : Nat) (hk : k ≠ 0) :
    (l.take k).head? = l.head? := by
  rcases l with _ | ⟨x, xs⟩
  · simp
  · rcases k with _ | k
    · exact absurd rfl hk
    · simp

theorem drop_ne_nil {l : List Char} {k : Nat} (hk : k < l.length) :
    l.drop k ≠ [] := by
  intro hcon
  have := List.length_drop k l
  rw [hcon] at this
  simp at this
  omega

theorem insertChildren_none : ∀ {cs : List RadixNode} {rem : List Char} {id : Nat},
    insertChildren cs rem id = none →
    ∀ c ∈ cs, commonPrefixLen (RadixNode.label c) rem = 0
  | [], rem, id, _ => by simp
  | c :: rest, rem, id, h => by
    rw [insertChildren] at h
    by_cases hk : commonPrefixLen (RadixNode.label c) rem = 0
    · rw [if_pos hk] at h
      intro d hd
      rcases List.mem_cons.mp hd with rfl | hd
      · exact hk
      · rcases hrec : insertChildren rest rem id with _ | rest'
        · exact insertChildren_none hrec d hd
        · rw [hrec] at h
          simp at h
    · rw [if_neg hk] at h
      by_cases hk2 : commonPrefixLen (RadixNode.label c) rem = (RadixNode.label c).length
      · rw [if_pos hk2] at h
        simp at h
      · rw [if_neg hk2] at h
        simp at h

theorem eq_append_drop_of_cpl_len {lab rem : List Char} {k : Nat}
    (hval : commonPrefixLen lab rem = k) (hlen : k = lab.length) :
    rem = lab ++ rem.drop k := by
  have htake := commonPrefixLen_take_eq lab rem
  rw [hval] at htake
  have hlab : lab = rem.take k := by
    conv_lhs => rw [← List.take_length lab, ← hlen, htake]
  rw [hlab, List.take_append_drop]

theorem eq_take_of_cpl_len {lab rem : List Char} {k : Nat}
    (hval : commonPrefixLen lab rem = k) (hlen : k = rem.length) :
    rem = lab.take k := by
  have htake := commonPrefixLen_take_eq lab rem
  rw [hval] at htake
  rw [htake, hlen, List.take_length]

theorem eq_take_append_drop_of_cpl {lab rem : List Char} {k : Nat}
    (hval : commonPrefixLen lab rem = k) :
    rem = lab.take k ++ rem.drop k := by
  have htake := commonPrefixLen_take_eq lab rem
  rw [hval] at htake
  rw [htake, List.take_append_drop]

mutual

/-- After `insertHelper`, the inserted `(term, id)` pair is stored: the
remaining term is a key word leading to `id`. -/
theorem hasKey_insertGo_self (n : RadixNode) (rem : List Char) (id : Nat) :
    HasKey (insertGo n rem id) rem id := by
  rcases n with ⟨l, ids, cs⟩
  rcases rem with _ | ⟨r, rs⟩
  · rw [insertGo]
    exact HasKey.here _ _ _ _ (mem_addId.mpr (Or.inl rfl))
  · rw [insertGo]
    rcases hmatch : insertChildren cs (r :: rs) id with _ | cs'
    · simp only [hmatch]
      have hnew : RadixNode.node (r :: rs) [id] [] ∈
          sortChildren (cs ++ [RadixNode.node (r :: rs) [id] []]) := by
        rw [(sortChildren_perm _).mem_iff]
        exact List.mem_append_right _ (List.mem_singleton.mpr rfl)
      have hkey : HasKey (RadixNode.node (r :: rs) [id] []) [] id :=
        HasKey.here _ _ _ _ (List.mem_singleton.mpr rfl)
      have := HasKey.via l ids
        (sortChildren (cs ++ [RadixNode.node (r :: rs) [id] []]))
        (RadixNode.node (r :: rs) [id] []) [] id hnew hkey
      simpa using this
    · simp only [hmatch]
      rcases insertChildren_hasKey_self cs (r :: rs) id hmatch with
        ⟨c', hc', w', hw', hk'⟩
      rw [hw']
      exact HasKey.via _ _ _ c' w' id hc' hk'
termination_by sizeOf n

/-- When the child loop of `insertHelper` fires, a child of the result stores
the remaining term. -/
theorem insertChildren_hasKey_self (cs : List RadixNode) (rem : List Char)
    (id : Nat) {cs' : List RadixNode} (h : insertChildren cs rem id = some cs') :
    ∃ c' ∈ cs', ∃ w', rem = RadixNode.label c' ++ w' ∧ HasKey c' w' id := by
  match cs with
  | [] => rw [insertChildren] at h; exact absurd h (by simp)
  | c :: rest =>
    rw [insertChildren] at h
    have hkle1 := commonPrefixLen_le_left (RadixNode.label c) rem
    have hkle2 := commonPrefixLen_le_right (RadixNode.label c) rem
    by_cases hk : commonPrefixLen (RadixNode.label c) rem = 0
    · rw [if_pos hk] at h
      rcases hrec : insertChildren rest rem id with _ | rest'
      · rw [hrec] at h
        simp at h
      · rw [hrec] at h
        simp only [Option.some.injEq] at h
        subst h
        rcases insertChildren_hasKey_self rest rem id hrec with
          ⟨c', hc', w', hw', hk'⟩
        exact ⟨c', List.mem_cons_of_mem _ hc', w', hw', hk'⟩
    · rw [if_neg hk] at h
      by_cases hk2 : commonPrefixLen (RadixNode.label c) rem = (RadixNode.label c).length
      · rw [if_pos hk2] at h
        simp only [Option.some.injEq] at h
        subst h
        refine ⟨insertGo c (rem.drop (commonPrefixLen (RadixNode.label c) rem)) id,
          List.mem_cons_self _ _,
          rem.drop (commonPrefixLen (RadixNode.label c) rem), ?_, ?_⟩
        · rw [label_insertGo]
          exact eq_append_drop_of_cpl_len rfl hk2
        · exact hasKey_insertGo_self c _ id
      · rw [if_neg hk2] at h
        by_cases hk3 : commonPrefixLen (RadixNode.label c) rem = rem.length
        · rw [if_pos hk3] at h
          simp only [Option.some.injEq] at h
          subst h
          refine ⟨_, List.mem_cons_self _ _, [], ?_, ?_⟩
          · simp only [RadixNode.label_node, List.append_nil]
            exact eq_take_of_cpl_len rfl hk3
          · exact HasKey.here _ _ _ _ (List.mem_singleton.mpr rfl)
        · rw [if_neg hk3] at h
          simp only [Option.some.injEq] at h
          subst h
          refine ⟨_, List.mem_cons_self _ _,
            rem.drop (commonPrefixLen (RadixNode.label c) rem) ++ [], ?_, ?_⟩
          · simp only [RadixNode.label_node, List.append_nil]
            exact eq_take_append_drop_of_cpl rfl
          · have hmem : RadixNode.node
                (rem.drop (commonPrefixLen (RadixNode.label c) rem)) [id] [] ∈
                sortChildren
                  [RadixNode.node
                    ((RadixNode.label c).drop (commonPrefixLen (RadixNode.label c) rem))
                    (RadixNode.ids c) (RadixNode.children c),
                   RadixNode.node
                    (rem.drop (commonPrefixLen (RadixNode.label c) rem)) [id] []] := by
              rw [(sortChildren_perm _).mem_iff]
              exact List.mem_cons_of_mem _ (List.mem_singleton.mpr rfl)
            have := HasKey.via ((RadixNode.label c).take (commonPrefixLen (RadixNode.label c) rem))
              [] _ _ [] id hmem (HasKey.here _ _ _ _ (List.mem_singleton.mpr rfl))
            simpa using this
termination_by sizeOf cs

end

mutual

/-- `insertHelper` never loses a stored key. -/
theorem hasKey_insertGo_mono (n : RadixNode) (rem : List Char) (id : Nat) :
    ∀ (w : List Char) (x : Nat), HasKey n w x →
    HasKey (insertGo n rem id) w x := by
  rcases n with ⟨l, ids, cs⟩
  intro w x h
  rcases rem with _ | ⟨r, rs⟩
  · rw [insertGo]
    rcases hasKey_node_iff.mp h with ⟨rfl, hid⟩ | ⟨c, hc, w', rfl, hk'⟩
    · exact HasKey.here _ _ _ _ (mem_addId.mpr (Or.inr hid))
    · exact HasKey.via _ _ _ c w' x hc hk'
  · rw [insertGo]
    rcases hmatch : insertChildren cs (r :: rs) id with _ | cs'
    · simp only [hmatch]
      rcases hasKey_node_iff.mp h with ⟨rfl, hid⟩ | ⟨c, hc, w', rfl, hk'⟩
      · exact HasKey.here _ _ _ _ hid
      · refine HasKey.via _ _ _ c w' x ?_ hk'
        rw [(sortChildren_perm _).mem_iff]
        exact List.mem_append_left _ hc
    · simp only [hmatch]
      rcases hasKey_node_iff.mp h with ⟨rfl, hid⟩ | ⟨c, hc, w', rfl, hk'⟩
      · exact HasKey.here _ _ _ _ hid
      · rcases insertChildren_hasKey_mono cs (r :: rs) id _ hmatch _ _ _ hc hk' with
          ⟨c', hc', w'', hww, hk''⟩
        rw [← hww]
        exact HasKey.via _ _ _ c' w'' x hc' hk''
termination_by sizeOf n
decreasing_by all_goals simp_wf <;> subst_vars <;> omega

/-- The child loop of `insertHelper` preserves every key stored below the
child list. -/
theorem insertChildren_hasKey_mono (cs : List RadixNode) (rem : List Char)
    (id : Nat) :
    ∀ (cs' : List RadixNode), insertChildren cs rem id = some cs' →
    ∀ (c : RadixNode) (w' : List Char) (x : Nat), c ∈ cs → HasKey c w' x →
    ∃ c' ∈ cs', ∃ w'',
      RadixNode.label c' ++ w'' = RadixNode.label c ++ w' ∧ HasKey c' w'' x := by
  match cs with
  | [] => intro cs' h; rw [insertChildren] at h; exact absurd h (by simp)
  | d :: rest =>
    intro cs' h c w' x hc hk
    rw [insertChildren] at h
    have hkle1 := commonPrefixLen_le_left (RadixNode.label d) rem
    have hkle2 := commonPrefixLen_le_right (RadixNode.label d) rem
    by_cases hk0 : commonPrefixLen (RadixNode.label d) rem = 0
    · rw [if_pos hk0] at h
      rcases hrec : insertChildren rest rem id with _ | rest'
      · rw [hrec] at h
        simp at h
      · rw [hrec] at h
        simp only [Option.some.injEq] at h
        subst h
        rcases List.mem_cons.mp hc with rfl | hc
        · exact ⟨c, List.mem_cons_self _ _, w', rfl, hk⟩
        · rcases insertChildren_hasKey_mono rest rem id _ hrec _ _ _ hc hk with
            ⟨c', hc', w'', hww, hk''⟩
          exact ⟨c', List.mem_cons_of_mem _ hc', w'', hww, hk''⟩
    · rw [if_neg hk0] at h
      by_cases hk2 : commonPrefixLen (RadixNode.label d) rem = (RadixNode.label d).length
      · rw [if_pos hk2] at h
        simp only [Option.some.injEq] at h
        subst h
        rcases List.mem_cons.mp hc with rfl | hc
        · refine ⟨insertGo c (rem.drop (commonPrefixLen (RadixNode.label c) rem)) id,
            List.mem_cons_self _ _, w', ?_, ?_⟩
          · rw [label_insertGo]
          · exact hasKey_insertGo_mono c _ id _ _ hk
        · exact ⟨c, List.mem_cons_of_mem _ hc, w', rfl, hk⟩
      · rw [if_neg hk2] at h
        have hsplit : ∀ (newids : List Nat) (newcs : List RadixNode),
            (RadixNode.node ((RadixNode.label d).drop
              (commonPrefixLen (RadixNode.label d) rem))
              (RadixNode.ids d) (RadixNode.children d)) ∈ newcs →
            c = d →
            ∃ c' ∈ (RadixNode.node ((RadixNode.label d).take
                (commonPrefixLen (RadixNode.label d) rem)) newids newcs) :: rest,
              ∃ w'', RadixNode.label c' ++ w'' = RadixNode.label c ++ w' ∧
                HasKey c' w'' x := by
          intro newids newcs hmem hcd
          subst hcd
          have hrelab : HasKey (RadixNode.node ((RadixNode.label c).drop
              (commonPrefixLen (RadixNode.label c) rem))
              (RadixNode.ids c) (RadixNode.children c)) w' x := by
            rcases c with ⟨lc, idsc, csc⟩
            exact hasKey_relabel hk
          refine ⟨_, List.mem_cons_self _ _,
            (RadixNode.label c).drop (commonPrefixLen (RadixNode.label c) rem) ++ w',
            ?_, ?_⟩
          · simp only [RadixNode.label_node]
            rw [← List.append_assoc, List.take_append_drop]
          · exact HasKey.via _ _ _ _ w' x hmem hrelab
        by_cases hk3 : commonPrefixLen (RadixNode.label d) rem = rem.length
        · rw [if_pos hk3] at h
          simp only [Option.some.injEq] at h
          subst h
          rcases List.mem_cons.mp hc with rfl | hc
          · exact hsplit [id] _ (List.mem_singleton.mpr rfl) rfl
          · exact ⟨c, List.mem_cons_of_mem _ hc, w', rfl, hk⟩
        · rw [if_neg hk3] at h
          simp only [Option.some.injEq] at h
          subst h
          rcases List.mem_cons.mp hc with rfl | hc
          · refine hsplit [] _ ?_ rfl
            rw [(sortChildren_perm _).mem_iff]
            exact List.mem_cons_self _ _
          · exact ⟨c, List.mem_cons_of_mem _ hc, w', rfl, hk⟩
termination_by sizeOf cs
decreasing_by all_goals simp_wf <;> subst_vars <;> omega

end

theorem take_ne_nil_of_ne {l : List Char} {k : Nat} (hk : k ≠ 0) (hl : l ≠ []) :
    l.take k ≠ [] := by
  intro hcon
  rcases List.take_eq_nil_iff.mp hcon with h | h
  · exact hk h
  · exact hl h

theorem ne_symm_opt : Symmetric (fun a b : Option Char => a ≠ b) := by
  intro a b h
  exact h.symm

theorem inv_leaf (lab : List Char) (ids : List Nat) :
    Inv (RadixNode.node lab ids []) :=
  Inv.mk _ _ _ (List.Pairwise.nil) (by simp) (by simp)

mutual

/-- `insertHelper` preserves the structural invariant. -/
theorem inv_insertGo (n : RadixNode) (rem : List Char) (id : Nat) :
    Inv n → Inv (insertGo n rem id) := by
  rcases n with ⟨l, ids, cs⟩
  intro hinv
  rcases rem with _ | ⟨r, rs⟩
  · rw [insertGo]
    exact inv_relabel hinv
  · rw [insertGo]
    rcases hmatch : insertChildren cs (r :: rs) id with _ | cs'
    · simp only [hmatch]
      have hz := insertChildren_none hmatch
      have hlabne := hinv.labels_ne
      have hperm := sortChildren_perm (cs ++ [RadixNode.node (r :: rs) [id] []])
      refine Inv.mk _ _ _ ?_ ?_ ?_
      · unfold HeadsDistinct
        have hmapperm := hperm.map (fun c => (RadixNode.label c).head?)
        refine (List.Perm.pairwise_iff (fun {a b} hab => Ne.symm hab) hmapperm).mpr ?_
        rw [List.map_append]
        rw [List.pairwise_append]
        refine ⟨hinv.headsDistinct, List.pairwise_singleton _ _, ?_⟩
        intro a ha b hb
        rcases List.mem_map.mp ha with ⟨c, hc, rfl⟩
        simp only [List.map_cons, List.map_nil, List.mem_singleton] at hb
        subst hb
        exact commonPrefixLen_zero_head_ne (hz c hc) (hlabne c hc) (by simp)
      · intro c hc
        rw [hperm.mem_iff] at hc
        rcases List.mem_append.mp hc with hc | hc
        · exact hlabne c hc
        · rw [List.mem_singleton] at hc
          subst hc
          simp
      · intro c hc
        rw [hperm.mem_iff] at hc
        rcases List.mem_append.mp hc with hc | hc
        · exact hinv.children_inv c hc
        · rw [List.mem_singleton] at hc
          subst hc
          exact inv_leaf _ _
    · simp only [hmatch]
      rcases insertChildren_inv cs (r :: rs) id cs' hmatch
        hinv.labels_ne hinv.children_inv with ⟨hmap, hlab', hinv'⟩
      refine Inv.mk _ _ _ ?_ hlab' hinv'
      unfold HeadsDistinct
      rw [hmap]
      exact hinv.headsDistinct
termination_by sizeOf n
decreasing_by all_goals simp_wf <;> subst_vars <;> omega

/-- The child loop of `insertHelper` preserves child labels' first
characters, label non-emptiness, and the invariant of every child. -/
theorem insertChildren_inv (cs : List RadixNode) (rem : List Char) (id : Nat) :
    ∀ (cs' : List RadixNode), insertChildren cs rem id = some cs' →
    (∀ c ∈ cs, RadixNode.label c ≠ []) →
    (∀ c ∈ cs, Inv c) →
    (cs'.map fun c => (RadixNode.label c).head?) =
      (cs.map fun c => (RadixNode.label c).head?) ∧
    (∀ c ∈ cs', RadixNode.label c ≠ []) ∧ (∀ c ∈ cs', Inv c) := by
  match cs with
  | [] => intro cs' h; rw [insertChildren] at h; exact absurd h (by simp)
  | d :: rest =>
    intro cs' h hlab hinv
    rw [insertChildren] at h
    have hkle1 := commonPrefixLen_le_left (RadixNode.label d) rem
    have hkle2 := commonPrefixLen_le_right (RadixNode.label d) rem
    by_cases hk0 : commonPrefixLen (RadixNode.label d) rem = 0
    · rw [if_pos hk0] at h
      rcases hrec : insertChildren rest rem id with _ | rest'
      · rw [hrec] at h
        simp at h
      · rw [hrec] at h
        simp only [Option.some.injEq] at h
        subst h
        rcases insertChildren_inv rest rem id _ hrec
          (fun c hc => hlab c (List.mem_cons_of_mem _ hc))
          (fun c hc => hinv c (List.mem_cons_of_mem _ hc)) with ⟨hmap, hlab', hinv'⟩
        refine ⟨?_, ?_, ?_⟩
        · rw [List.map_cons, List.map_cons, hmap]
        · intro c hc
          rcases List.mem_cons.mp hc with rfl | hc
          · exact hlab c (List.mem_cons_self _ _)
          · exact hlab' c hc
        · intro c hc
          rcases List.mem_cons.mp hc with rfl | hc
          · exact hinv c (List.mem_cons_self _ _)
          · exact hinv' c hc
    · rw [if_neg hk0] at h
      by_cases hk2 : commonPrefixLen (RadixNode.label d) rem = (RadixNode.label d).length
      · rw [if_pos hk2] at h
        simp only [Option.some.injEq] at h
        subst h
        refine ⟨?_, ?_, ?_⟩
        · rw [List.map_cons, List.map_cons, label_insertGo]
        · intro c hc
          rcases List.mem_cons.mp hc with rfl | hc
          · rw [label_insertGo]
            exact hlab d (List.mem_cons_self _ _)
          · exact hlab c (List.mem_cons_of_mem _ hc)
        · intro c hc
          rcases List.mem_cons.mp hc with rfl | hc
          · exact inv_insertGo d _ id (hinv d (List.mem_cons_self _ _))
          · exact hinv c (List.mem_cons_of_mem _ hc)
      · rw [if_neg hk2] at h
        have hdlab := hlab d (List.mem_cons_self _ _)
        have hdinv := hinv d (List.mem_cons_self _ _)
        have hklt : commonPrefixLen (RadixNode.label d) rem <
            (RadixNode.label d).length := by omega
        have hdroplab : (RadixNode.label d).drop
            (commonPrefixLen (RadixNode.label d) rem) ≠ [] := drop_ne_nil hklt
        have hinv_old : Inv (RadixNode.node
            ((RadixNode.label d).drop (commonPrefixLen (RadixNode.label d) rem))
            (RadixNode.ids d) (RadixNode.children d)) := by
          rcases d with ⟨ld, idsd, csd⟩
          exact inv_relabel hdinv
        have htail : ∀ (c' : RadixNode),
            RadixNode.label c' =
              (RadixNode.label d).take (commonPrefixLen (RadixNode.label d) rem) →
            Inv c' →
            ((c' :: rest).map fun c => (RadixNode.label c).head?) =
              ((d :: rest).map fun c => (RadixNode.label c).head?) ∧
            (∀ c ∈ c' :: rest, RadixNode.label c ≠ []) ∧
            (∀ c ∈ c' :: rest, Inv c) := by
          intro c' hc'lab hc'inv
          refine ⟨?_, ?_, ?_⟩
          · rw [List.map_cons, List.map_cons, hc'lab,
              take_head? (RadixNode.label d) _ hk0]
          · intro c hc
            rcases List.mem_cons.mp hc with rfl | hc
            · rw [hc'lab]
              exact take_ne_nil_of_ne hk0 hdlab
            · exact hlab c (List.mem_cons_of_mem _ hc)
          · intro c hc
            rcases List.mem_cons.mp hc with rfl | hc
            · exact hc'inv
            · exact hinv c (List.mem_cons_of_mem _ hc)
        by_cases hk3 : commonPrefixLen (RadixNode.label d) rem = rem.length
        · rw [if_pos hk3] at h
          simp only [Option.some.injEq] at h
          subst h
          refine htail _ rfl ?_
          refine Inv.mk _ _ _ ?_ ?_ ?_
          · exact List.pairwise_singleton _ _
          · intro c hc
            rw [List.mem_singleton] at hc
            subst hc
            exact hdroplab
          · intro c hc
            rw [List.mem_singleton] at hc
            subst hc
            exact hinv_old
        · rw [if_neg hk3] at h
          simp only [Option.some.injEq] at h
          subst h
          refine htail _ rfl ?_
          have hkltr : commonPrefixLen (RadixNode.label d) rem < rem.length := by
            omega
          have hdroprem : rem.drop (commonPrefixLen (RadixNode.label d) rem) ≠ [] :=
            drop_ne_nil hkltr
          have hperm := sortChildren_perm
            [RadixNode.node ((RadixNode.label d).drop
                (commonPrefixLen (RadixNode.label d) rem))
              (RadixNode.ids d) (RadixNode.children d),
             RadixNode.node (rem.drop (commonPrefixLen (RadixNode.label d) rem))
              [id] []]
          refine Inv.mk _ _ _ ?_ ?_ ?_
          · unfold HeadsDistinct
            have hmapperm := hperm.map (fun c => (RadixNode.label c).head?)
            refine (List.Perm.pairwise_iff (fun {a b} hab => Ne.symm hab) hmapperm).mpr ?_
            simp only [List.map_cons, List.map_nil, RadixNode.label_node]
            refine List.pairwise_cons.mpr ⟨?_, List.pairwise_singleton _ _⟩
            intro b hb
            rw [List.mem_singleton] at hb
            subst hb
            exact commonPrefixLen_drop_head_ne (RadixNode.label d) rem hklt hkltr
          · intro c hc
            rw [hperm.mem_iff] at hc
            rcases List.mem_cons.mp hc with rfl | hc
            · exact hdroplab
            · rw [List.mem_singleton] at hc
              subst hc
              exact hdroprem
          · intro c hc
            rw [hperm.mem_iff] at hc
            rcases List.mem_cons.mp hc with rfl | hc
            · exact hinv_old
            · rw [List.mem_singleton] at hc
              subst hc
              exact inv_leaf _ _
termination_by sizeOf cs
decreasing_by all_goals simp_wf <;> subst_vars <;> omega

end

/-! ### Claim C8: insert/search correctness -/

theorem inv_empty : Inv RadixTreeIndex.empty.root := inv_leaf _ _

theorem inv_insert {t : RadixTreeIndex} (term : List Char) (id : Nat)
    (h : Inv t.root) : Inv (t.insert term id).root := by
  unfold RadixTreeIndex.insert
  by_cases hterm : term = []
  · rw [if_pos hterm]
    exact h
  · rw [if_neg hterm]
    exact inv_insertGo _ _ _ h

theorem hasKey_insert_mono {t : RadixTreeIndex} (term : List Char) (id : Nat)
    {w : List Char} {x : Nat} (h : HasKey t.root w x) :
    HasKey ((t.insert term id).root) w x := by
  unfold RadixTreeIndex.insert
  by_cases hterm : term = []
  · rw [if_pos hterm]
    exact h
  · rw [if_neg hterm]
    exact hasKey_insertGo_mono _ _ _ _ _ h

theorem hasKey_insert_self {t : RadixTreeIndex} {term : List Char} (id : Nat)
    (hterm : term ≠ []) : HasKey ((t.insert term id).root) term id := by
  unfold RadixTreeIndex.insert
  rw [if_neg hterm]
  exact hasKey_insertGo_self _ _ _

theorem foldl_insert_inv : ∀ (l : List (List Char × Nat)) (t : RadixTreeIndex),
    Inv t.root → Inv (l.foldl (fun t p => t.insert p.1 p.2) t).root
  | [], t, h => h
  | p :: ps, t, h =>
    foldl_insert_inv ps _ (inv_insert p.1 p.2 h)

theorem foldl_insert_mono : ∀ (l : List (List Char × Nat)) (t : RadixTreeIndex)
    {w : List Char} {x : Nat}, HasKey t.root w x →
    HasKey ((l.foldl (fun t p => t.insert p.1 p.2) t).root) w x
  | [], t, w, x, h => h
  | p :: ps, t, w, x, h =>
    foldl_insert_mono ps _ (hasKey_insert_mono p.1 p.2 h)

theorem foldl_insert_hasKey : ∀ (l : List (List Char × Nat)) (t : RadixTreeIndex)
    {term : List Char} {id : Nat}, (term, id) ∈ l → term ≠ [] →
    HasKey ((l.foldl (fun t p => t.insert p.1 p.2) t).root) term id := by
  intro l
  induction l with
  | nil => intro t term id h; simp at h
  | cons p ps ih =>
    intro t term id hmem hne
    rcases List.mem_cons.mp hmem with rfl | hmem
    · exact foldl_insert_mono ps _ (hasKey_insert_self _ hne)
    · exact ih _ hmem hne

/-- **Claim C8.** For any radix trie built by a sequence of
`insert(t_i, id_i)` calls with non-empty terms, for every `i`, `id_i` is a
member of `search(p)` for every non-empty prefix `p` of `t_i` — in
particular `id_i ∈ search(t_i)`. -/
theorem claim_C8_trie_insert_search (inserts : List (List Char × Nat))
    (term : List Char) (id : Nat) (hmem : (term, id) ∈ inserts)
    (hne : term ≠ []) (p : List Char) (hp : p ≠ []) (hpre : p <+: term) :
    id ∈ (buildTrie inserts).search p := by
  unfold RadixTreeIndex.search
  rw [if_neg hp]
  have hinv : Inv (buildTrie inserts).root := foldl_insert_inv _ _ inv_empty
  have hkey : HasKey (buildTrie inserts).root term id :=
    foldl_insert_hasKey _ _ hmem hne
  exact search_complete hkey hinv hp hpre

/-- Witness for C8 at a concrete build: insert ("AB",1) then ("ABCD",2);
"AB" is a non-empty prefix of "ABCD" and search("AB") finds id 2. -/
theorem claim_C8_witness :
    (("ABCD").toList, 2) ∈ [(("AB").toList, 1), (("ABCD").toList, 2)] ∧
    ("ABCD").toList ≠ [] ∧ ("AB").toList ≠ [] ∧
    ("AB").toList <+: ("ABCD").toList ∧
    2 ∈ (buildTrie [(("AB").toList, 1), (("ABCD").toList, 2)]).search (("AB").toList) :=
  ⟨by decide, by decide, by decide, by decide,
   claim_C8_trie_insert_search [(("AB").toList, 1), (("ABCD").toList, 2)]
     (("ABCD").toList) 2 (by decide) (by decide) (("AB").toList)
     (by decide) (by decide)⟩

/-- Witness for C9: a concrete string already in normalized form is a fixed
point of `normalize`. -/
theorem claim_C9_witness :
    isNormalized (("123 MAIN ST").toList) = true ∧
    normalize (("123 MAIN ST").toList) = ("123 MAIN ST").toList :=
  ⟨by decide,
   claim_C9_normalize_idempotent.2.1 (("123 MAIN ST").toList) (by decide)⟩

/-! ### Claim C1: multi-term search is set intersection -/

theorem mem_intersectLoop {t : RadixTreeIndex} :
    ∀ {terms : List (List Char)} {acc : List Nat} {x : Nat},
    x ∈ intersectLoop t acc terms ↔ x ∈ acc ∧ ∀ s ∈ terms, x ∈ t.search s
  | [], acc, x => by simp [intersectLoop]
  | s :: rest, acc, x => by
    rw [intersectLoop]
    by_cases hempty : acc.filter (fun y => decide (y ∈ t.search s)) = []
    · rw [if_pos hempty, hempty]
      simp only [List.not_mem_nil, false_iff]
      rintro ⟨hacc, hall⟩
      have : x ∈ acc.filter (fun y => decide (y ∈ t.search s)) := by
        rw [List.mem_filter]
        exact ⟨hacc, by simpa using hall s (List.mem_cons_self _ _)⟩
      rw [hempty] at this
      simp at this
    · rw [if_neg hempty]
      rw [@mem_intersectLoop _ rest]
      rw [List.mem_filter]
      constructor
      · rintro ⟨⟨hacc, hs⟩, hrest⟩
        refine ⟨hacc, ?_⟩
        intro u hu
        rcases List.mem_cons.mp hu with rfl | hu
        · simpa using hs
        · exact hrest u hu
      · rintro ⟨hacc, hall⟩
        exact ⟨⟨hacc, by simpa using hall s (List.mem_cons_self _ _)⟩,
          fun u hu => hall u (List.mem_cons_of_mem _ hu)⟩

theorem mem_findMatchingIds_multi {t : RadixTreeIndex} {q : List Char}
    {qs : List (List Char)} (hqs : qs ≠ []) {x : Nat} :
    x ∈ findMatchingIds t (q :: qs) ↔
      ∀ term ∈ q :: qs, x ∈ t.search (normalize term) := by
  rw [findMatchingIds]
  rw [if_neg (by simp [hqs])]
  by_cases hfirst : t.search (normalize q) = []
  · rw [if_pos (Or.inl hfirst)]
    rw [hfirst]
    simp only [List.not_mem_nil, false_iff]
    intro hall
    have := hall q (List.mem_cons_self _ _)
    rw [hfirst] at this
    simp at this
  · rw [if_neg (by simp [hfirst, hqs])]
    rw [mem_intersectLoop]
    constructor
    · rintro ⟨hq, hall⟩
      intro term hterm
      rcases List.mem_cons.mp hterm with rfl | hterm
      · exact hq
      · exact hall (normalize term) (List.mem_map_of_mem _ hterm)
    · intro hall
      refine ⟨hall q (List.mem_cons_self _ _), ?_⟩
      intro s hs
      rcases List.mem_map.mp hs with ⟨term, hterm, rfl⟩
      exact hall term (List.mem_cons_of_mem _ hterm)

/-- A single-term search with no comma in the term materializes the IDs of
the prefix search for the normalized term. -/
theorem search_single_term {t : RadixTreeIndex} {fi : ForwardIndex}
    {term : List Char} (hcomma : ',' ∉ term) :
    DataNode.search t fi [term] =
      (t.search (normalize term)).filterMap (fun id => fi.get id) := by
  unfold DataNode.search
  rw [if_neg (by simp)]
  rw [findMatchingIds]
  rw [if_neg (by simp [hcomma])]
  rw [if_pos (Or.inr rfl)]

/-- **Claim C1.** For queries of two or more comma-free terms,
`DataNode::search` returns exactly the records materialized from the
intersection of the per-term prefix searches of the normalized terms; as a
set of records (given the Forward-Store invariant `get(id).hash = id`), the
result equals the intersection of the single-term searches. -/
theorem claim_C1_multi_term_intersection (t : RadixTreeIndex)
    (fi : ForwardIndex) (q : List Char) (qs : List (List Char))
    (hlen : 2 ≤ (q :: qs).length)
    (hcomma : ∀ term ∈ q :: qs, ',' ∉ term)
    (hhash : ∀ id r, fi.get id = some r → r.hash = id)
    (r : AddressRecord) :
    (r ∈ DataNode.search t fi (q :: qs) ↔
      ∃ id, fi.get id = some r ∧
        ∀ term ∈ q :: qs, id ∈ t.search (normalize term)) ∧
    (r ∈ DataNode.search t fi (q :: qs) ↔
      ∀ term ∈ q :: qs, r ∈ DataNode.search t fi [term]) := by
  have hqs : qs ≠ [] := by
    intro hcon
    rw [hcon] at hlen
    simp at hlen
  have hmain : r ∈ DataNode.search t fi (q :: qs) ↔
      ∃ id, fi.get id = some r ∧
        ∀ term ∈ q :: qs, id ∈ t.search (normalize term) := by
    unfold DataNode.search
    rw [if_neg (by simp)]
    rw [List.mem_filterMap]
    constructor
    · rintro ⟨id, hid, hget⟩
      exact ⟨id, hget, (mem_findMatchingIds_multi hqs).mp hid⟩
    · rintro ⟨id, hget, hall⟩
      exact ⟨id, (mem_findMatchingIds_multi hqs).mpr hall, hget⟩
  refine ⟨hmain, hmain.trans ?_⟩
  constructor
  · rintro ⟨id, hget, hall⟩
    intro term hterm
    rw [search_single_term (hcomma term hterm), List.mem_filterMap]
    exact ⟨id, hall term hterm, hget⟩
  · intro hall
    have hq := hall q (List.mem_cons_self _ _)
    rw [search_single_term (hcomma q (List.mem_cons_self _ _)),
      List.mem_filterMap] at hq
    rcases hq with ⟨id, hidq, hget⟩
    refine ⟨id, hget, ?_⟩
    intro term hterm
    have hr := hall term hterm
    rw [search_single_term (hcomma term hterm), List.mem_filterMap] at hr
    rcases hr with ⟨id', hid', hget'⟩
    have h1 := hhash id r hget
    have h2 := hhash id' r hget'
    have heq : id = id' := h1.symm.trans h2
    rw [heq]
    exact hid'

/-- Witness for C1 at a concrete two-term query over a concrete shard. -/
theorem claim_C1_witness :
    2 ≤ ([("main").toList, ("seattle").toList] : List (List Char)).length ∧
    (∀ term ∈ [("main").toList, ("seattle").toList], ',' ∉ term) ∧
    (∀ id r, c1fi.get id = some r → r.hash = id) ∧
    ((c1rec ∈ DataNode.search c1trie c1fi [("main").toList, ("seattle").toList] ↔
      ∃ id, c1fi.get id = some c1rec ∧
        ∀ term ∈ [("main").toList, ("seattle").toList],
          id ∈ c1trie.search (normalize term)) ∧
     (c1rec ∈ DataNode.search c1trie c1fi [("main").toList, ("seattle").toList] ↔
      ∀ term ∈ [("main").toList, ("seattle").toList],
        c1rec ∈ DataNode.search c1trie c1fi [term])) := by
  have hhash : ∀ id r, c1fi.get id = some r → r.hash = id := by
    intro id r h
    have h' : (if id = 1 then some c1rec else none) = some r := h
    by_cases hid : id = 1
    · subst hid
      rw [if_pos rfl] at h'
      cases h'
      rfl
    · rw [if_neg hid] at h'
      cases h'
  exact ⟨by decide, by decide, hhash,
    claim_C1_multi_term_intersection c1trie c1fi (("main").toList)
      [("seattle").toList] (by decide) (by decide) hhash c1rec⟩

theorem tryKeys_eq_firstNonEmpty (t : RadixTreeIndex) :
    ∀ (ks : List (List Char)),
    tryKeys t ks = firstNonEmptyResult (ks.map (fun k => t.search k))
  | [] => rfl
  | k :: ks => by
    rw [tryKeys]
    by_cases h : t.search k = []
    · rw [if_pos h]
      have ih := tryKeys_eq_firstNonEmpty t ks
      unfold firstNonEmptyResult at ih ⊢
      rw [List.map_cons, List.filter_cons, h]
      simpa using ih
    · rw [if_neg h]
      unfold firstNonEmptyResult
      rw [List.map_cons, List.filter_cons]
      simp [h]

/-- **Claim C10.** A single-term query containing a comma is parsed into
components and answered exclusively through the composite keys, most
specific first, taking the first key with a non-empty result; the raw term
is never prefix-searched. -/
theorem claim_C10_structured_query (t : RadixTreeIndex) (fi : ForwardIndex)
    (q : List Char) (hcomma : ',' ∈ q) :
    findMatchingIds t [q] = structuredLookupSpec t q ∧
    DataNode.search t fi [q] =
      (structuredLookupSpec t q).filterMap (fun id => fi.get id) := by
  have h1 : findMatchingIds t [q] = structuredLookupSpec t q := by
    rw [findMatchingIds]
    rw [if_pos ⟨rfl, hcomma⟩]
    rw [structuredLookupSpec, structuredKeys]
    exact tryKeys_eq_firstNonEmpty t _
  refine ⟨h1, ?_⟩
  unfold DataNode.search
  rw [if_neg (by simp), h1]

/-- Witness for C10 at the concrete structured query "12 FOO, BAR". -/
theorem claim_C10_witness :
    ',' ∈ ("12 FOO, BAR").toList ∧
    findMatchingIds c10trie [("12 FOO, BAR").toList] =
      structuredLookupSpec c10trie (("12 FOO, BAR").toList) :=
  ⟨by decide,
   (claim_C10_structured_query c10trie ForwardIndex.emptyFI
     (("12 FOO, BAR").toList) (by decide)).1⟩

theorem parseRecord_isSome_iff_validLine (l : List Char) :
    (parseRecord l).isSome = validLine l := by
  unfold parseRecord validLine
  by_cases hlen : (splitCSVLine l).length < 11
  · rw [if_pos hlen]
    have : decide (11 ≤ (splitCSVLine l).length) = false := by
      simp only [decide_eq_false_iff_not]
      omega
    rw [this]
    simp
  · rw [if_neg hlen]
    have hlen' : decide (11 ≤ (splitCSVLine l).length) = true := by
      simp only [decide_eq_true_eq]
      omega
    rw [hlen']
    rcases h0 : parseFloat (((splitCSVLine l).get? 0).getD []) with _ | lon
    · simp
    rcases h1 : parseFloat (((splitCSVLine l).get? 1).getD []) with _ | lat
    · simp
    simp only []
    by_cases hv : validateCoordinates lon lat
    · rw [if_pos hv, hv]
      by_cases hh : ((splitCSVLine l).get? 10).getD [] = []
      · rw [if_pos hh]
        have hh' : (splitCSVLine l)[10]?.getD [] = [] := by
          rw [← List.get?_eq_getElem?]
          exact hh
        simp [hh']
      · rw [if_neg hh]
        have hh' : ¬(splitCSVLine l)[10]?.getD [] = [] := by
          rw [← List.get?_eq_getElem?]
          exact hh
        rcases hhex : parseHexU64 (((splitCSVLine l).get? 10).getD []) with _ | v <;>
        · have hhex' := hhex
          rw [List.get?_eq_getElem?] at hhex'
          simp [List.isEmpty_iff, hh', hhex']
    · rw [if_neg hv]
      simp only [Bool.not_eq_true] at hv
      rw [hv]
      simp

theorem length_filterMap_eq_countP (f : List Char → Option AddressRecord) :
    ∀ (ls : List (List Char)),
    (ls.filterMap f).length = ls.countP (fun l => (f l).isSome)
  | [] => rfl
  | l :: ls => by
    rw [List.filterMap_cons, List.countP_cons]
    rcases h : f l with _ | r
    · simp [h, length_filterMap_eq_countP f ls]
    · simp [h, length_filterMap_eq_countP f ls]

theorem parseDataLines_spec : ∀ (ls : List (List Char)),
    parseDataLines ls =
      ((ls.filter (fun l => trimWhitespace l ≠ [])).filterMap parseRecord,
       (ls.filter (fun l => trimWhitespace l ≠ [])).countP
         (fun l => (parseRecord l).isSome),
       (ls.filter (fun l => trimWhitespace l ≠ [])).countP
         (fun l => (parseRecord l).isNone))
  | [] => rfl
  | l :: ls => by
    rw [parseDataLines, parseDataLines_spec ls, List.filter_cons]
    by_cases he : trimWhitespace l = []
    · simp [he]
    · rcases hr : parseRecord l with _ | r
      · simp [he, List.filterMap_cons, List.countP_cons, hr]
      · simp [he, List.filterMap_cons, List.countP_cons, hr]

/-- **Claim C6.** `CSVParser::parse` drops exactly the invalid data lines:
after skipping the header and whitespace-only lines, the records are the
successfully parsed lines in order, `success_count` equals the number of
valid lines and the number of returned records, `error_count` equals the
number of invalid lines, and a line is valid exactly under the claim's
per-line contract (`validLine`). -/
theorem claim_C6_csv_counters (header : List Char) (rest : List (List Char)) :
    CSVParser.parse (header :: rest) =
      ((rest.filter (fun l => trimWhitespace l ≠ [])).filterMap parseRecord,
       (rest.filter (fun l => trimWhitespace l ≠ [])).countP
         (fun l => (parseRecord l).isSome),
       (rest.filter (fun l => trimWhitespace l ≠ [])).countP
         (fun l => (parseRecord l).isNone)) ∧
    ((rest.filter (fun l => trimWhitespace l ≠ [])).filterMap parseRecord).length =
      (rest.filter (fun l => trimWhitespace l ≠ [])).countP
        (fun l => (parseRecord l).isSome) ∧
    (∀ l : List Char, (parseRecord l).isSome = validLine l) :=
  ⟨parseDataLines_spec rest,
   length_filterMap_eq_countP parseRecord _,
   parseRecord_isSome_iff_validLine⟩

theorem containsSub_of_isPrefixOf {hay needle : List Char}
    (h : needle.isPrefixOf hay = true) : containsSub hay needle = true := by
  rcases hay with _ | ⟨c, t⟩
  · rcases needle with _ | ⟨n, ns⟩
    · rfl
    · simp [List.isPrefixOf] at h
  · rw [containsSub, h]
    rfl

/-- **Claim C2.** For every record and non-empty term list the Aggregator's
score equals the claim's formula. -/
theorem claim_C2_relevance_score (r : ProtoAddressRecord)
    (query_terms : List (List Char)) (hne : query_terms ≠ []) :
    calculateRelevanceScore r query_terms = specRelevanceScore r query_terms := by
  simp only [calculateRelevanceScore, specRelevanceScore]
  rw [if_neg hne]
  have hcount : ∀ term : List Char,
      ([r.street, r.city, r.postcode, r.number].any fun f => containsSub f term) =
      (containsSub r.street term || containsSub r.city term ||
        containsSub r.postcode term || containsSub r.number term) := by
    intro term
    simp [List.any, Bool.or_assoc]
  have hbonus : ∀ term : List Char,
      ((if containsSub r.street term then
          (if term.isPrefixOf r.street then (15 : ℚ) else 10) else 0) +
       (if containsSub r.city term then
          (if term.isPrefixOf r.city then (8 : ℚ) else 5) else 0) +
       (if containsSub r.postcode term then (3 : ℚ) else 0) +
       (if containsSub r.number term then (5 : ℚ) else 0)) =
      ((if term.isPrefixOf r.street then (15 : ℚ)
        else if containsSub r.street term then 10 else 0) +
       (if term.isPrefixOf r.city then (8 : ℚ)
        else if containsSub r.city term then 5 else 0) +
       (if containsSub r.postcode term then (3 : ℚ) else 0) +
       (if containsSub r.number term then (5 : ℚ) else 0)) := by
    intro term
    have hstreet : (if containsSub r.street term then
        (if term.isPrefixOf r.street then (15 : ℚ) else 10) else 0) =
        (if term.isPrefixOf r.street then (15 : ℚ)
         else if containsSub r.street term then 10 else 0) := by
      by_cases hp : term.isPrefixOf r.street
      · simp [hp, containsSub_of_isPrefixOf hp]
      · by_cases hc : containsSub r.street term
        · simp [hp, hc]
        · simp [hp, hc]
    have hcity : (if containsSub r.city term then
        (if term.isPrefixOf r.city then (8 : ℚ) else 5) else 0) =
        (if term.isPrefixOf r.city then (8 : ℚ)
         else if containsSub r.city term then 5 else 0) := by
      by_cases hp : term.isPrefixOf r.city
      · simp [hp, containsSub_of_isPrefixOf hp]
      · by_cases hc : containsSub r.city term
        · simp [hp, hc]
        · simp [hp, hc]
    rw [hstreet, hcity]
  have hmap : query_terms.map (fun term =>
      (if containsSub r.street term then
        (if term.isPrefixOf r.street then (15 : ℚ) else 10) else 0) +
      (if containsSub r.city term then
        (if term.isPrefixOf r.city then (8 : ℚ) else 5) else 0) +
      (if containsSub r.postcode term then (3 : ℚ) else 0) +
      (if containsSub r.number term then (5 : ℚ) else 0)) =
      query_terms.map (fun term =>
      (if term.isPrefixOf r.street then (15 : ℚ)
       else if containsSub r.street term then 10 else 0) +
      (if term.isPrefixOf r.city then (8 : ℚ)
       else if containsSub r.city term then 5 else 0) +
      (if containsSub r.postcode term then (3 : ℚ) else 0) +
      (if containsSub r.number term then (5 : ℚ) else 0)) :=
    List.map_congr_left (fun term _ => hbonus term)
  have hcnt : query_terms.countP (fun term =>
      [r.street, r.city, r.postcode, r.number].any fun f => containsSub f term) =
      query_terms.countP (fun term =>
      containsSub r.street term || containsSub r.city term ||
        containsSub r.postcode term || containsSub r.number term) := by
    apply List.countP_congr
    intro term _
    rw [hcount term]
  rw [hmap, hcnt]
  push_cast [Nat.cast_ite]
  ring

/-- Witness for C2 at a concrete record and one-term query. -/
theorem claim_C2_witness :
    ([("3RD").toList] : List (List Char)) ≠ [] ∧
    calculateRelevanceScore c2rec [("3RD").toList] =
      specRelevanceScore c2rec [("3RD").toList] :=
  ⟨by decide, claim_C2_relevance_score c2rec [("3RD").toList] (by decide)⟩

/-! ### Claim C5: size bound and descending order -/

theorem insertScored_perm (s : ScoredAddressRecord) :
    ∀ (l : List ScoredAddressRecord), (insertScored s l).Perm (s :: l)
  | [] => List.Perm.refl _
  | t :: ts => by
    unfold insertScored
    by_cases h : s.relevance_score > t.relevance_score
    · rw [if_pos h]
    · rw [if_neg h]
      exact ((insertScored_perm s ts).cons t).trans (List.Perm.swap s t ts)

theorem sortScored_perm (l : List ScoredAddressRecord) :
    (sortScored l).Perm l := by
  induction l with
  | nil => exact List.Perm.refl _
  | cons s ts ih =>
    unfold sortScored
    exact (insertScored_perm s _).trans (ih.cons s)

theorem scoreSorted_insertScored (s : ScoredAddressRecord) :
    ∀ {l : List ScoredAddressRecord}, ScoreSorted l →
    ScoreSorted (insertScored s l)
  | [], _ => List.pairwise_singleton _ _
  | t :: ts, h => by
    unfold insertScored
    rcases List.pairwise_cons.mp h with ⟨ht, hts⟩
    by_cases hcmp : s.relevance_score > t.relevance_score
    · rw [if_pos hcmp]
      refine List.pairwise_cons.mpr ⟨?_, h⟩
      intro x hx
      rcases List.mem_cons.mp hx with rfl | hx
      · exact le_of_lt hcmp
      · exact le_trans (ht x hx) (le_of_lt hcmp)
    · rw [if_neg hcmp]
      refine List.pairwise_cons.mpr ⟨?_, scoreSorted_insertScored s hts⟩
      intro x hx
      rw [(insertScored_perm s ts).mem_iff] at hx
      rcases List.mem_cons.mp hx with rfl | hx
      · exact le_of_not_lt hcmp
      · exact ht x hx

theorem scoreSorted_sortScored (l : List ScoredAddressRecord) :
    ScoreSorted (sortScored l) := by
  induction l with
  | nil => exact List.Pairwise.nil
  | cons s ts ih => exact scoreSorted_insertScored s ih

/-- **Claim C5.** The Aggregator returns at most `max_results` records,
sorted by non-increasing relevance score (truncation is applied to the
sorted list). -/
theorem claim_C5_truncation_and_order (results : List DataNodeResult)
    (query_terms : List (List Char)) (max_results : Nat) :
    (aggregateAndRankResults results query_terms max_results).length ≤
      max_results ∧
    ScoreSorted (aggregateAndRankResults results query_terms max_results) := by
  constructor
  · unfold aggregateAndRankResults
    simpa using List.length_take_le max_results _
  · unfold aggregateAndRankResults
    exact List.Pairwise.sublist (List.take_sublist _ _)
      (scoreSorted_sortScored _)

theorem isDuplicate_iff_dupKey {a b : ProtoAddressRecord} :
    isDuplicate a b = true ↔ dupKey a = dupKey b := by
  unfold isDuplicate dupKey
  simp only [Bool.and_eq_true, decide_eq_true_eq, Prod.mk.injEq]
  tauto

theorem isDuplicate_comm (a b : ProtoAddressRecord) :
    isDuplicate a b = isDuplicate b a := by
  by_cases h : isDuplicate a b = true
  · rw [h]
    exact (isDuplicate_iff_dupKey.mpr (isDuplicate_iff_dupKey.mp h).symm).symm
  · rw [Bool.not_eq_true] at h
    rw [h]
    by_cases h2 : isDuplicate b a = true
    · exact absurd (isDuplicate_iff_dupKey.mpr (isDuplicate_iff_dupKey.mp h2).symm)
        (by rw [h]; simp)
    · rw [Bool.not_eq_true] at h2
      rw [h2]

theorem keepBetter_record (a b : ScoredAddressRecord) :
    (keepBetter a b).record = a.record ∨ (keepBetter a b).record = b.record := by
  unfold keepBetter
  by_cases h : b.relevance_score > a.relevance_score
  · rw [if_pos h]
    exact Or.inr rfl
  · rw [if_neg h]
    exact Or.inl rfl

theorem findKey_dedupInsert (k : List Char × List Char × List Char × List Char)
    (s : ScoredAddressRecord) :
    ∀ (acc : List ScoredAddressRecord),
    findKey k (dedupInsert acc s) =
      if dupKey s.record = k then
        (match findKey k acc with
         | some e => some (keepBetter e s)
         | none => some s)
      else findKey k acc
  | [] => by
    unfold dedupInsert findKey
    rw [List.find?_singleton]
    by_cases hk : dupKey s.record = k
    · rw [if_pos hk]
      simp [hk]
    · rw [if_neg hk]
      simp [hk, List.find?]
  | e :: rest => by
    rw [dedupInsert]
    by_cases hdup : isDuplicate e.record s.record
    · rw [if_pos hdup]
      have hkey : dupKey e.record = dupKey s.record := isDuplicate_iff_dupKey.mp hdup
      have hrec : ((if s.relevance_score > e.relevance_score then s else e)).record =
          e.record ∨
          ((if s.relevance_score > e.relevance_score then s else e)).record =
          s.record := keepBetter_record e s
      have hkb : dupKey ((if s.relevance_score > e.relevance_score then s else e)).record =
          dupKey s.record := by
        rcases hrec with h | h
        · rw [h, hkey]
        · rw [h]
      by_cases hk : dupKey s.record = k
      · rw [if_pos hk]
        unfold findKey
        rw [List.find?_cons_of_pos _ (by simp [hkb, hk]),
          List.find?_cons_of_pos _ (by simp [hkey, hk])]
        rfl
      · rw [if_neg hk]
        unfold findKey
        rw [List.find?_cons_of_neg _ (by simp [hkb, hk]),
          List.find?_cons_of_neg _ (by simp [hkey, hk])]
    · rw [if_neg hdup]
      rw [Bool.not_eq_true] at hdup
      by_cases hke : dupKey e.record = k
      · have hks : dupKey s.record ≠ k := by
          intro hcon
          have : dupKey e.record = dupKey s.record := by rw [hke, hcon]
          rw [isDuplicate_iff_dupKey.mpr this] at hdup
          cases hdup
        rw [if_neg hks]
        unfold findKey
        rw [List.find?_cons_of_pos _ (by simp [hke]),
          List.find?_cons_of_pos _ (by simp [hke])]
      · unfold findKey
        rw [List.find?_cons_of_neg _ (by simp [hke]),
          List.find?_cons_of_neg _ (by simp [hke])]
        have ih := findKey_dedupInsert k s rest
        unfold findKey at ih
        exact ih

theorem findKey_foldl_dedupInsert
    (k : List Char × List Char × List Char × List Char) :
    ∀ (stream acc : List ScoredAddressRecord),
    findKey k (stream.foldl dedupInsert acc) =
      (match findKey k acc,
        stream.filter (fun s => decide (dupKey s.record = k)) with
       | some e, cls => some (cls.foldl keepBetter e)
       | none, [] => none
       | none, c :: cs => some (cs.foldl keepBetter c))
  | [], acc => by
    rcases h : findKey k acc with _ | e <;> simp [h]
  | s :: rest, acc => by
    rw [List.foldl_cons, findKey_foldl_dedupInsert k rest (dedupInsert acc s),
      findKey_dedupInsert k s acc, List.filter_cons]
    rcases h : findKey k acc with _ | e
    · by_cases hk : dupKey s.record = k
      · simp [hk, h]
      · simp [hk, h]
    · by_cases hk : dupKey s.record = k
      · simp [hk, h]
      · simp [hk, h]
  termination_by stream => stream.length

theorem findKey_collect (k : List Char × List Char × List Char × List Char)
    (stream : List ScoredAddressRecord) :
    findKey k (stream.foldl dedupInsert []) = classRep k stream := by
  rw [findKey_foldl_dedupInsert k stream []]
  have h0 : findKey k [] = none := rfl
  rw [h0, classRep]
  rcases hf : List.filter (fun s => decide (dupKey s.record = k)) stream with
    _ | ⟨c, cs⟩
  · rw [hf]
  · rw [hf]

theorem mem_dedupInsert_key {x s : ScoredAddressRecord} :
    ∀ {acc : List ScoredAddressRecord}, x ∈ dedupInsert acc s →
    (∃ a ∈ acc, dupKey x.record = dupKey a.record) ∨
      dupKey x.record = dupKey s.record
  | [], h => by
    rw [dedupInsert] at h
    rcases List.mem_singleton.mp h with rfl
    exact Or.inr rfl
  | e :: rest, h => by
    rw [dedupInsert] at h
    by_cases hdup : isDuplicate e.record s.record
    · rw [if_pos hdup] at h
      rcases List.mem_cons.mp h with rfl | hx
      · rcases keepBetter_record e s with hk | hk
        · unfold keepBetter at hk
          exact Or.inl ⟨e, List.mem_cons_self _ _, by rw [hk]⟩
        · unfold keepBetter at hk
          exact Or.inr (by rw [hk])
      · exact Or.inl ⟨x, List.mem_cons_of_mem _ hx, rfl⟩
    · rw [if_neg hdup] at h
      rcases List.mem_cons.mp h with rfl | hx
      · exact Or.inl ⟨x, List.mem_cons_self _ _, rfl⟩
      · rcases mem_dedupInsert_key hx with ⟨a, ha, hk⟩ | hk
        · exact Or.inl ⟨a, List.mem_cons_of_mem _ ha, hk⟩
        · exact Or.inr hk

theorem noDup_dedupInsert {s : ScoredAddressRecord} :
    ∀ {acc : List ScoredAddressRecord}, NoDupRecords acc →
    NoDupRecords (dedupInsert acc s)
  | [], _ => List.pairwise_singleton _ _
  | e :: rest, h => by
    rcases List.pairwise_cons.mp h with ⟨he, hrest⟩
    rw [dedupInsert]
    by_cases hdup : isDuplicate e.record s.record
    · rw [if_pos hdup]
      refine List.pairwise_cons.mpr ⟨?_, hrest⟩
      intro x hx
      have hnd := he x hx
      rcases keepBetter_record e s with hk | hk <;> unfold keepBetter at hk <;>
        rw [hk]
      · exact hnd
      · by_contra hcon
        rw [Bool.not_eq_false] at hcon
        have h1 := isDuplicate_iff_dupKey.mp hcon
        have h2 := isDuplicate_iff_dupKey.mp hdup
        have : isDuplicate e.record x.record = true :=
          isDuplicate_iff_dupKey.mpr (h2.trans h1)
        rw [hnd] at this
        cases this
    · rw [if_neg hdup]
      rw [Bool.not_eq_true] at hdup
      refine List.pairwise_cons.mpr ⟨?_, noDup_dedupInsert hrest⟩
      intro x hx
      rcases mem_dedupInsert_key hx with ⟨a, ha, hk⟩ | hk
      · by_contra hcon
        rw [Bool.not_eq_false] at hcon
        have := (isDuplicate_iff_dupKey.mp hcon).trans hk
        have h2 := he a ha
        rw [isDuplicate_iff_dupKey.mpr this] at h2
        cases h2
      · by_contra hcon
        rw [Bool.not_eq_false] at hcon
        have := (isDuplicate_iff_dupKey.mp hcon).trans hk
        rw [isDuplicate_iff_dupKey.mpr this] at hdup
        cases hdup

theorem noDup_foldl_dedupInsert :
    ∀ (stream acc : List ScoredAddressRecord), NoDupRecords acc →
    NoDupRecords (stream.foldl dedupInsert acc)
  | [], _, h => h
  | s :: rest, acc, h =>
    noDup_foldl_dedupInsert rest (dedupInsert acc s) (noDup_dedupInsert h)

theorem collect_aux (query_terms : List (List Char)) :
    ∀ (results : List DataNodeResult) (acc : List ScoredAddressRecord),
    results.foldl
      (fun acc res =>
        if res.success then
          res.records.foldl
            (fun acc2 r =>
              dedupInsert acc2
                ⟨r, res.shard_id, calculateRelevanceScore r query_terms⟩)
            acc
        else acc) acc =
    (results.flatMap (fun res =>
      if res.success then
        res.records.map
          (fun r => ⟨r, res.shard_id, calculateRelevanceScore r query_terms⟩)
      else [])).foldl dedupInsert acc
  | [], acc => rfl
  | res :: rest, acc => by
    rw [List.foldl_cons, List.flatMap_cons, List.foldl_append]
    by_cases hs : res.success
    · simp only [if_pos hs, List.foldl_map]
      exact collect_aux query_terms rest _
    · simp only [if_neg hs, List.foldl_nil]
      exact collect_aux query_terms rest _

theorem collectScored_eq_foldl_stream (results : List DataNodeResult)
    (query_terms : List (List Char)) :
    collectScored results query_terms =
      (scoredStream results query_terms).foldl dedupInsert [] := by
  unfold collectScored scoredStream
  exact collect_aux query_terms results []

theorem findKey_of_mem_noDup {y : ScoredAddressRecord} :
    ∀ {l : List ScoredAddressRecord}, NoDupRecords l → y ∈ l →
    findKey (dupKey y.record) l = some y
  | [], _, hy => by cases hy
  | e :: rest, h, hy => by
    rcases List.pairwise_cons.mp h with ⟨he, hrest⟩
    rcases List.mem_cons.mp hy with rfl | hy
    · unfold findKey
      rw [List.find?_cons_of_pos _ (by simp)]
    · have hne : dupKey e.record ≠ dupKey y.record := by
        intro hcon
        have := he y hy
        rw [isDuplicate_iff_dupKey.mpr hcon] at this
        cases this
      unfold findKey
      rw [List.find?_cons_of_neg _ (by simpa using hne)]
      exact findKey_of_mem_noDup hrest hy

/-- **Claim C4.** The Aggregator's output never contains two records
agreeing on (number, street, city, postcode); and a scored record survives
the deduplication phase exactly when it is the representative of its
duplicate class — the first-seen record of maximal score, later records
replacing the kept one only with a strictly higher score. -/
theorem claim_C4_dedup_policy (results : List DataNodeResult)
    (query_terms : List (List Char)) (max_results : Nat) :
    NoDupRecords (aggregateAndRankResults results query_terms max_results) ∧
    (∀ y, y ∈ collectScored results query_terms ↔
      ∃ k, classRep k (scoredStream results query_terms) = some y) := by
  constructor
  · have h1 : NoDupRecords (collectScored results query_terms) := by
      rw [collectScored_eq_foldl_stream]
      exact noDup_foldl_dedupInsert _ _ List.Pairwise.nil
    have h2 : NoDupRecords (sortScored (collectScored results query_terms)) := by
      refine (List.Perm.pairwise_iff ?_ (sortScored_perm _)).mpr h1
      intro a b hab
      rw [isDuplicate_comm]
      exact hab
    exact List.Pairwise.sublist (List.take_sublist _ _) h2
  · intro y
    have hnd : NoDupRecords (collectScored results query_terms) := by
      rw [collectScored_eq_foldl_stream]
      exact noDup_foldl_dedupInsert _ _ List.Pairwise.nil
    constructor
    · intro hy
      refine ⟨dupKey y.record, ?_⟩
      rw [← findKey_collect]
      rw [← collectScored_eq_foldl_stream]
      exact findKey_of_mem_noDup hnd hy
    · rintro ⟨k, hk⟩
      rw [← findKey_collect, ← collectScored_eq_foldl_stream] at hk
      exact List.mem_of_find?_eq_some hk

/-! ### Claim C3: status-code policy at the fan-out stage -/

/-- **Claim C3.** Whenever the handler reaches the fan-out stage (i.e.
produces the standard body), the status is 200 when no node failed, 207 on
partial failure, 503 with the extra error field when every node failed; in
all three cases the standard body is returned with consistent fields. -/
theorem runSearchStage_results (address : List Char)
    (query_terms : List (List Char))
    (fanout : List (List Char) → List DataNodeResult) (st : Nat)
    (fb : FindAddressBody)
    (h : runSearchStage address query_terms fanout = .results st fb) :
    (fb.failed_nodes = 0 → st = 200 ∧ fb.error = none) ∧
    (0 < fb.failed_nodes → 0 < fb.successful_nodes →
      st = 207 ∧ fb.error = none) ∧
    (fb.successful_nodes = 0 → 0 < fb.failed_nodes →
      st = 503 ∧ fb.error = some msgAllFailed) ∧
    fb.query = address ∧ fb.query_terms = query_terms ∧
    fb.result_count = fb.results.length ∧
    fb.results = aggregateAndRankResults (fanout fb.query_terms)
      fb.query_terms 5 ∧
    fb.successful_nodes =
      ((fanout fb.query_terms).filter (fun r => r.success)).length ∧
    fb.failed_nodes =
      ((fanout fb.query_terms).filter (fun r => !r.success)).length := by
  unfold runSearchStage at h
  split at h
  · exact absurd h (by simp)
  · simp only [] at h
    split at h
    · -- all nodes failed: 503 with the error field
      next hcond =>
      injection h with h1 h2
      subst h1
      subst h2
      refine ⟨?_, ?_, ?_, rfl, rfl, rfl, rfl, rfl, rfl⟩
      · intro h0
        exfalso
        dsimp only at h0
        omega
      · intro _ hs
        exfalso
        dsimp only at hs
        omega
      · intro _ _
        exact ⟨rfl, rfl⟩
    · split at h
      · -- partial failure: 207
        next hcond hcond2 =>
        injection h with h1 h2
        subst h1
        subst h2
        refine ⟨?_, ?_, ?_, rfl, rfl, rfl, rfl, rfl, rfl⟩
        · intro h0
          exfalso
          dsimp only at h0
          omega
        · intro _ _
          exact ⟨rfl, rfl⟩
        · intro hs _
          exfalso
          dsimp only at hs
          rw [Decidable.not_and_iff_or_not] at hcond
          rcases hcond with hf | hf
          · exact hf hcond2
          · exact hf hs
      · -- no failures: 200
        next hcond hcond2 =>
        injection h with h1 h2
        subst h1
        subst h2
        refine ⟨?_, ?_, ?_, rfl, rfl, rfl, rfl, rfl, rfl⟩
        · intro _
          exact ⟨rfl, rfl⟩
        · intro hf _
          exfalso
          dsimp only at hf
          omega
        · intro _ hf
          exfalso
          dsimp only at hf
          omega

/-- **Claim C3.** Whenever the handler reaches the fan-out stage (i.e.
produces the standard body), the status is 200 when no node failed, 207 on
partial failure, 503 with the extra error field when every node failed; in
all three cases the standard body is returned with consistent fields. -/
theorem claim_C3_status_codes (body? : Option JsonValue)
    (fanout : List (List Char) → List DataNodeResult) (st : Nat)
    (fb : FindAddressBody)
    (h : findAddressHandler body? fanout = .results st fb) :
    (fb.failed_nodes = 0 → st = 200 ∧ fb.error = none) ∧
    (0 < fb.failed_nodes → 0 < fb.successful_nodes →
      st = 207 ∧ fb.error = none) ∧
    (fb.successful_nodes = 0 → 0 < fb.failed_nodes →
      st = 503 ∧ fb.error = some msgAllFailed) ∧
    fb.result_count = fb.results.length ∧
    fb.results = aggregateAndRankResults (fanout fb.query_terms)
      fb.query_terms 5 ∧
    fb.successful_nodes =
      ((fanout fb.query_terms).filter (fun r => r.success)).length ∧
    fb.failed_nodes =
      ((fanout fb.query_terms).filter (fun r => !r.success)).length := by
  rcases body? with _ | body <;> simp only [findAddressHandler] at h
  · exact absurd h (by simp)
  · split at h
    · exact absurd h (by simp)
    · split at h
      · exact absurd h (by simp)
      · split at h
        · exact absurd h (by simp)
        · have := runSearchStage_results _ _ _ _ _ h
          exact ⟨this.1, this.2.1, this.2.2.1, this.2.2.2.2.2.1,
            this.2.2.2.2.2.2.1, this.2.2.2.2.2.2.2.1, this.2.2.2.2.2.2.2.2⟩

/-- Witness for C3: one successful empty shard; the handler reaches the
fan-out stage and answers 200 with the standard body. -/
theorem claim_C3_witness :
    findAddressHandler c3body c3fanout = .results 200 c3fb ∧
    c3fb.failed_nodes = 0 ∧ (200 = 200 ∧ c3fb.error = none) :=
  ⟨rfl, rfl, (claim_C3_status_codes c3body c3fanout 200 c3fb rfl).1 rfl⟩

/-! ### Claim C7: the 400 cases of request parsing -/

theorem runSearchStage_ne_clientError {address : List Char}
    {query_terms : List (List Char)}
    {fanout : List (List Char) → List DataNodeResult}
    (hterms : query_terms ≠ []) (st : Nat) (e : List Char) :
    runSearchStage address query_terms fanout ≠ .clientError st e := by
  unfold runSearchStage
  rw [if_neg hterms]
  simp only []
  split
  · simp
  · split
    · simp
    · simp

/-- **Claim C7 (amended).** `POST /api/findAddress` answers 400 with an
error body exactly when: the body is not valid JSON, the `address` field is
missing (also when the body is not a JSON object), `address` is the empty
string, or `address` has no comma and no whitespace tokens.  A present but
non-string `address` raises inside the handler and yields the 500 response
instead of a 400.  A comma makes the address a single query term; otherwise
the whitespace tokens are the terms. -/
theorem claim_C7_request_parsing (body? : Option JsonValue)
    (fanout : List (List Char) → List DataNodeResult) :
    ((∃ e, findAddressHandler body? fanout =
        FindAddressResponse.clientError 400 e) ↔
      (body? = none ∨
       ∃ b, body? = some b ∧
         (jhas b addressKey = false ∨
          ∃ a, (jget b addressKey).bind jstrOpt = some a ∧
            (a = [] ∨ (',' ∉ a ∧ splitWs a = []))))) ∧
    (∀ b, body? = some b → jhas b addressKey = true →
      (jget b addressKey).bind jstrOpt = none →
      findAddressHandler body? fanout =
        FindAddressResponse.serverError 500 msgInternal msgNotAString) ∧
    (∀ st fb, findAddressHandler body? fanout =
        FindAddressResponse.results st fb →
      fb.query_terms = (if ',' ∈ fb.query then [fb.query]
        else splitWs fb.query)) := by
  refine ⟨?_, ?_, ?_⟩
  · -- characterization of the 400 responses
    rcases body? with _ | body
    · simp only [findAddressHandler]
      constructor
      · intro _
        exact Or.inl trivial
      · intro _
        exact ⟨msgInvalidJson, rfl⟩
    · simp only [findAddressHandler]
      by_cases hhas : jhas body addressKey = false
      · rw [if_pos hhas]
        constructor
        · intro _
          exact Or.inr ⟨body, rfl, Or.inl hhas⟩
        · intro _
          exact ⟨msgMissing, rfl⟩
      · rw [if_neg hhas]
        rcases hget : (jget body addressKey).bind jstrOpt with _ | address <;>
          simp only [hget]
        · constructor
          · rintro ⟨e, hcon⟩
            cases hcon
          · rintro (hcon | ⟨b, hb, hbad⟩)
            · cases hcon
            · have hb' : body = b := by injection hb
              subst hb'
              rcases hbad with hbad | ⟨a, ha, _⟩
              · exact absurd hbad hhas
              · rw [hget] at ha
                cases ha
        · by_cases haddr : address = []
          · rw [if_pos haddr]
            constructor
            · intro _
              exact Or.inr ⟨body, rfl, Or.inr ⟨address, hget, Or.inl haddr⟩⟩
            · intro _
              exact ⟨msgEmpty, rfl⟩
          · rw [if_neg haddr]
            by_cases hcomma : ',' ∈ address
            · rw [if_pos hcomma]
              constructor
              · rintro ⟨e, hcon⟩
                exact absurd hcon (runSearchStage_ne_clientError (by simp) 400 e)
              · rintro (hcon | ⟨b, hb, hbad⟩)
                · cases hcon
                · have hb' : body = b := by injection hb
                  subst hb'
                  rcases hbad with hbad | ⟨a, ha, hbad⟩
                  · exact absurd hbad hhas
                  · rw [hget] at ha
                    have ha' : address = a := by injection ha
                    subst ha'
                    rcases hbad with hbad | ⟨hnc, _⟩
                    · exact absurd hbad haddr
                    · exact absurd hcomma hnc
            · rw [if_neg hcomma]
              by_cases hsplit : splitWs address = []
              · constructor
                · intro _
                  exact Or.inr ⟨body, rfl, Or.inr ⟨address, hget,
                    Or.inr ⟨hcomma, hsplit⟩⟩⟩
                · intro _
                  refine ⟨msgNoTerms, ?_⟩
                  unfold runSearchStage
                  rw [if_pos hsplit]
              · constructor
                · rintro ⟨e, hcon⟩
                  exact absurd hcon (runSearchStage_ne_clientError hsplit 400 e)
                · rintro (hcon | ⟨b, hb, hbad⟩)
                  · cases hcon
                  · have hb' : body = b := by injection hb
                    subst hb'
                    rcases hbad with hbad | ⟨a, ha, hbad⟩
                    · exact absurd hbad hhas
                    · rw [hget] at ha
                      have ha' : address = a := by injection ha
                      subst ha'
                      rcases hbad with hbad | ⟨_, hbad⟩
                      · exact absurd hbad haddr
                      · exact absurd hbad hsplit
  · -- a non-string address value yields the 500 response
    rintro b rfl hhas hget
    simp only [findAddressHandler]
    rw [if_neg (by rw [hhas]; simp)]
    simp only [hget]
  · -- the terms carried by the standard body
    intro st fb h
    rcases body? with _ | body <;> simp only [findAddressHandler] at h
    · exact absurd h (by simp)
    · split at h
      · exact absurd h (by simp)
      · split at h
        · exact absurd h (by simp)
        · split at h
          · exact absurd h (by simp)
          · have hq := runSearchStage_results _ _ _ _ _ h
            rw [hq.2.2.2.2.1, hq.2.2.2.1]

/-- Counterexample to C7 as stated: a request whose `address` field is
present but not a string (here the number 5) is not answered with 400 — the
`.s()` accessor raises and the catch-all produces the 500 response. -/
theorem claim_C7_counterexample :
    findAddressHandler c7nonStringBody (fun _ => []) =
      FindAddressResponse.serverError 500 msgInternal msgNotAString := rfl

/-- Witness for the amended C7 at the concrete non-string input. -/
theorem claim_C7_witness :
    jhas (JsonValue.jobj [(addressKey, JsonValue.jnum 5)]) addressKey = true ∧
    (jget (JsonValue.jobj [(addressKey, JsonValue.jnum 5)]) addressKey).bind
      jstrOpt = none ∧
    findAddressHandler c7nonStringBody (fun _ => []) =
      FindAddressResponse.serverError 500 msgInternal msgNotAString :=
  ⟨by decide, rfl,
   (claim_C7_request_parsing c7nonStringBody (fun _ => [])).2.1
     (JsonValue.jobj [(addressKey, JsonValue.jnum 5)]) rfl (by decide) rfl⟩

end Geocoding
